import Mathlib

/-!
Verification development for a Minesweeper implementation.

The board engine lives in `minesweeper/logic.py` (functions `create_mine_grid`,
`calc_adjacency`, `reveal_cell`, `chord_reveal`) and is duplicated verbatim in
`main.py`, which also contains the session controller (`reset` and the event
loop in `main`).  This file gives a shallow embedding of those functions and
proves the specification claims about them.

Modelling conventions:

* Python lists of lists become `List (List α)`.  A Python read `xs[i]` with a
  negative `i` counts from the end of the list; this is modelled faithfully by
  `pyIdx`.  A read whose resolved index falls outside the list raises
  `IndexError` in Python; the model returns a default value instead, and no
  settled theorem depends on that case.
* `reveal_cell` and `chord_reveal` read the module globals `cfg.ROWS` and
  `cfg.COLUMNS` (in `logic.py`; the constants 8 and 6 from `config.py`, never
  reassigned inside the repository) resp. `ROWS` and `COLUMNS` (in `main.py`;
  reassigned by `main` to the dimensions of the current board).  The embedding
  therefore takes the bound values `BR`, `BC` as explicit parameters holding
  whatever the globals contain at call time.
* The Python `while stack:` loop carries no fuel; the embedding uses a fuel
  parameter large enough that it is provably never exhausted on well-formed
  boards (theorem for claim C10), so the fuel is a proof device, not a
  semantic change.
* `random.sample(available, num_mines)` returns `num_mines` distinct elements
  of `available`; the embedding takes the sampled list as a parameter and the
  theorems quantify over every list satisfying that contract (`SampleOk`).
-/

namespace Minesweeper

/-- A board matrix, exactly as in the Python code: a list of rows. -/
abbrev Grid (α : Type) := List (List α)

/-- Python index resolution: a negative index counts from the end of the list. -/
def pyIdx (n : Nat) (i : Int) : Int := if i < 0 then (n : Int) + i else i

/-- Python list read `xs[i]`.  A resolved index outside `[0, n)` raises
`IndexError` in Python and returns the default `d` here. -/
def pyGetD (d : α) (xs : List α) (i : Int) : α :=
  if 0 ≤ pyIdx xs.length i then xs.getD (pyIdx xs.length i).toNat d else d

/-- Python list write `xs[i] = v`.  A resolved index outside `[0, n)` raises
`IndexError` in Python and leaves the list unchanged here. -/
def pySet (xs : List α) (i : Int) (v : α) : List α :=
  if 0 ≤ pyIdx xs.length i then xs.set (pyIdx xs.length i).toNat v else xs

/-- Matrix read `g[r][c]` with default `d`. -/
def cellD (d : α) (g : Grid α) (r c : Int) : α := pyGetD d (pyGetD [] g r) c

/-- Matrix write `g[r][c] = v`. -/
def setCell (g : Grid α) (r c : Int) (v : α) : Grid α :=
  pySet g r (pySet (pyGetD [] g r) c v)

/-- The matrix is a rectangular `R` by `C` array, as all boards built by the
program are. -/
def WFGrid (R C : Nat) (g : Grid α) : Prop :=
  g.length = R ∧ ∀ row ∈ g, row.length = C

instance (R C : Nat) (g : Grid α) [DecidableEq α] : Decidable (WFGrid R C g) := by
  unfold WFGrid; infer_instance

namespace cfg

/-- Constant `ROWS = 8` from `config.py`; never reassigned inside the repository. -/
def ROWS : Int := 8

/-- Constant `COLUMNS = 6` from `config.py`; never reassigned inside the repository. -/
def COLUMNS : Int := 6

/-- Constant `NUM_MINES = 7` from `config.py`. -/
def NUM_MINES : Nat := 7

end cfg

/-- The eight neighbour offsets produced by the two nested
`for dr in (-1, 0, 1): for dc in (-1, 0, 1)` loops, skipping `(0, 0)`,
in source iteration order. -/
def offsets : List (Int × Int) :=
  [(-1, -1), (-1, 0), (-1, 1), (0, -1), (0, 1), (1, -1), (1, 0), (1, 1)]

/-- The in-bounds neighbours of `(r, c)` produced by the offset loops under the
bound check `0 <= nr < BR and 0 <= nc < BC`, in source iteration order. -/
def neighborsList (BR BC : Int) (r c : Int) : List (Int × Int) :=
  offsets.filterMap (fun o =>
    if 0 ≤ r + o.1 ∧ r + o.1 < BR ∧ 0 ≤ c + o.2 ∧ c + o.2 < BC then
      some (r + o.1, c + o.2)
    else none)

/-- `calc_adjacency` from `logic.py` (identical in `main.py`): `-1` sentinel on
mined cells, otherwise the count of mined in-bounds neighbours.  `rows` and
`columns` are taken from the matrix itself, as in the source. -/
def calc_adjacency (mine_grid : Grid Bool) : Grid Int :=
  (List.range mine_grid.length).map (fun (r : Nat) =>
    (List.range (pyGetD [] mine_grid 0).length).map (fun (c : Nat) =>
      if cellD false mine_grid (r : Int) (c : Int) then (-1 : Int)
      else (((neighborsList (mine_grid.length : Int) ((pyGetD [] mine_grid 0).length : Int)
        (r : Int) (c : Int)).filter
        (fun p => cellD false mine_grid p.1 p.2)).length : Int)))

/-- The list `all_positions` from `create_mine_grid`, in source (row-major)
order. -/
def all_positions (rows columns : Nat) : List (Nat × Nat) :=
  List.product (List.range rows) (List.range columns)

/-- The list `available` from `create_mine_grid`: the Python filter is
`not exclude or pos not in exclude`. -/
def availableOf (rows columns : Nat) (exclude : List (Nat × Nat)) : List (Nat × Nat) :=
  (all_positions rows columns).filter
    (fun pos => exclude.isEmpty || !(exclude.contains pos))

/-- `create_mine_grid` from `logic.py` (the `main.py` copy computes the same
`available` list by an equivalent if/else).  The result of
`random.sample(available, num_mines)` is passed in as `sample`; the raised
`ValueError` becomes an `Except.error` carrying the source message. -/
def create_mine_grid (rows columns num_mines : Nat) (exclude : List (Nat × Nat))
    (sample : List (Nat × Nat)) : Except String (Grid Bool) :=
  let available := availableOf rows columns exclude
  if available.length < num_mines then
    Except.error "Number of mines exceeds available cells when applying exclusions"
  else
    Except.ok ((List.range rows).map (fun r =>
      (List.range columns).map (fun c => sample.contains (r, c))))

/-- Contract of `random.sample(available, num_mines)`: `num_mines` distinct
elements of `available`. -/
def SampleOk (rows columns num_mines : Nat) (exclude sample : List (Nat × Nat)) : Prop :=
  sample.Nodup ∧ sample.length = num_mines ∧
    ∀ p ∈ sample, p ∈ availableOf rows columns exclude

/-- The cells appended to the stack when a zero-adjacency cell `(cr, cc)` is
expanded: in-bounds neighbours that are not revealed (read after the current
cell has been marked) and not mined. -/
def neighborPushes (BR BC : Int) (mine_grid revealed : Grid Bool) (cr cc : Int) :
    List (Int × Int) :=
  (neighborsList BR BC cr cc).filter
    (fun p => !(cellD false revealed p.1 p.2) && !(cellD false mine_grid p.1 p.2))

/-- The `while stack:` loop of `reveal_cell`.  `stack` is held top-first, so
`list.pop()` is the head and the batch of `list.append` calls from one
expansion arrives reversed in front of the rest.  The fuel only bounds the
iteration count; `revealFuel` below is proven sufficient. -/
def revealLoop (BR BC : Int) (mine_grid : Grid Bool) (adjacency_grid : Grid Int)
    (flagged : Grid Bool) :
    Nat → Grid Bool → Nat → List (Int × Int) → Option (Bool × Nat × Grid Bool)
  | _, revealed, n, [] => some (false, n, revealed)
  | 0, _, _, _ :: _ => none
  | fuel + 1, revealed, n, (cr, cc) :: rest =>
    if cellD false revealed cr cc || cellD false flagged cr cc then
      revealLoop BR BC mine_grid adjacency_grid flagged fuel revealed n rest
    else
      if cellD false mine_grid cr cc then some (true, n + 1, setCell revealed cr cc true)
      else if cellD 0 adjacency_grid cr cc = 0 then
        revealLoop BR BC mine_grid adjacency_grid flagged fuel
          (setCell revealed cr cc true) (n + 1)
          ((neighborPushes BR BC mine_grid (setCell revealed cr cc true) cr cc).reverse
            ++ rest)
      else
        revealLoop BR BC mine_grid adjacency_grid flagged fuel
          (setCell revealed cr cc true) (n + 1) rest

/-- Fuel sufficient for every run of `revealLoop` settled in this file. -/
def revealFuel (BR BC : Int) : Nat := 8 * (BR.toNat * BC.toNat + 1) + 1

/-- `reveal_cell` from `logic.py` (identical in `main.py` up to the origin of
the bounds `BR`, `BC`).  Returns `(hit_mine, num_newly_revealed)` together with
the updated `revealed` matrix; `mine_grid`, `adjacency_grid` and `flagged` are
never written by the source function. -/
def reveal_cell (BR BC : Int) (r c : Int) (mine_grid : Grid Bool)
    (adjacency_grid : Grid Int) (revealed flagged : Grid Bool) :
    Option (Bool × Nat × Grid Bool) :=
  if cellD false revealed r c || cellD false flagged r c then some (false, 0, revealed)
  else revealLoop BR BC mine_grid adjacency_grid flagged (revealFuel BR BC) revealed 0 [(r, c)]

/-- The neighbour loop at the end of `chord_reveal`: reveal every neighbour
that is neither flagged nor revealed, accumulate the opened counts and stop at
the first mine hit. -/
def chordLoop (BR BC : Int) (mine_grid : Grid Bool) (adjacency_grid : Grid Int)
    (flagged : Grid Bool) :
    List (Int × Int) → Grid Bool → Nat → Option (Bool × Nat × Grid Bool)
  | [], revealed, total => some (false, total, revealed)
  | p :: rest, revealed, total =>
    if !(cellD false flagged p.1 p.2) && !(cellD false revealed p.1 p.2) then
      (reveal_cell BR BC p.1 p.2 mine_grid adjacency_grid revealed flagged).bind
        (fun r3 =>
          if r3.1 then some (true, total + r3.2.1, r3.2.2)
          else chordLoop BR BC mine_grid adjacency_grid flagged rest r3.2.2
            (total + r3.2.1))
    else chordLoop BR BC mine_grid adjacency_grid flagged rest revealed total

/-- `chord_reveal` from `logic.py` (identical in `main.py` up to the origin of
the bounds).  Returns `(hit_mine, total_opened)` with the updated `revealed`
matrix; the other three matrices are never written by the source function. -/
def chord_reveal (BR BC : Int) (r c : Int) (mine_grid : Grid Bool)
    (adjacency_grid : Grid Int) (revealed flagged : Grid Bool) :
    Option (Bool × Nat × Grid Bool) :=
  if !(cellD false revealed r c) then some (false, 0, revealed)
  else if cellD 0 adjacency_grid r c ≤ 0 then some (false, 0, revealed)
  else if ((((neighborsList BR BC r c).filter
        (fun p => cellD false flagged p.1 p.2)).length : Int) ≠
      cellD 0 adjacency_grid r c) then some (false, 0, revealed)
  else chordLoop BR BC mine_grid adjacency_grid flagged (neighborsList BR BC r c) revealed 0

/-! ## Session controller from `main.py` -/

/-- An all-`v` matrix, as built by the comprehensions in `reset`. -/
def mkGrid (R C : Nat) (v : α) : Grid α :=
  (List.range R).map (fun _ => (List.range C).map (fun _ => v))

/-- Result of the loss-feedback loop in `main`: every mined cell of the `R` by
`C` board is marked revealed (the source writes `revealed[rr][cc] = True` cell
by cell; the resulting matrix is the same). -/
def revealMines (R C : Nat) (mine_grid revealed : Grid Bool) : Grid Bool :=
  (List.range R).map (fun (r : Nat) =>
    (List.range C).map (fun (c : Nat) =>
      if cellD false mine_grid (r : Int) (c : Int) then true
      else cellD false revealed (r : Int) (c : Int)))

/-- The mutable session state of `main` (the timer ticks, which never feed back
into board logic, are omitted). `game_state` is the Python string, one of
"running", "won", "lost". -/
structure SessionState where
  mine_grid : Grid Bool
  adjacency_grid : Grid Int
  revealed : Grid Bool
  flagged : Grid Bool
  game_state : String
  remaining_safe : Int
  is_first_click : Bool
deriving DecidableEq

/-- `reset` from `main`: a fresh board.  The grid produced by
`create_mine_grid(ROWS, COLUMNS, NUM_MINES)` is passed in as `g`. -/
def reset (R C M : Nat) (g : Grid Bool) : SessionState :=
  { mine_grid := g
    adjacency_grid := calc_adjacency g
    revealed := mkGrid R C false
    flagged := mkGrid R C false
    game_state := "running"
    remaining_safe := (R : Int) * (C : Int) - (M : Int)
    is_first_click := true }

/-- A player action on the board, after the pixel-to-cell mapping.  A reveal
action carries the grid that `create_mine_grid(ROWS, COLUMNS, NUM_MINES,
exclude)` would return on the first-click regeneration path. -/
inductive Action where
  | reveal (r c : Int) (regen : Grid Bool)
  | chord (r c : Int)
  | flag (r c : Int)
deriving DecidableEq

/-- The shared post-processing after `reveal_cell` or `chord_reveal` in `main`:
on a hit, reveal all mines and go to "lost"; otherwise decrement the
remaining-safe counter and go to "won" when it reaches zero.  The source
repeats this block verbatim at its three call sites. -/
def applyOutcome (R C : Nat) (s : SessionState) (hit : Bool) (opened : Nat)
    (revealed1 : Grid Bool) : SessionState :=
  if hit then
    { s with revealed := revealMines R C s.mine_grid revealed1, game_state := "lost" }
  else
    { s with revealed := revealed1, remaining_safe := s.remaining_safe - (opened : Int),
             game_state :=
               if s.remaining_safe - (opened : Int) = 0 then "won" else s.game_state }

/-- The first-click safety block of the left-click handler: when
`is_first_click and not revealed[r][c]`, drop the first-click marker and
install the regenerated mine layout (excluding the clicked cell) together with
its adjacency matrix. -/
def firstClickAdjust (s : SessionState) (r c : Int) (regen : Grid Bool) : SessionState :=
  if s.is_first_click && !(cellD false s.revealed r c) then
    { s with is_first_click := false, mine_grid := regen,
             adjacency_grid := calc_adjacency regen }
  else s

/-- One `MOUSEBUTTONDOWN` dispatch of the event loop in `main` for a mapped
cell: actions are ignored unless `game_state == "running"`; a left click first
runs the first-click regeneration when `is_first_click and not revealed[r][c]`;
a right click toggles the flag of an unrevealed cell.  `none` models fuel
exhaustion of the embedded reveal loop (proven unreachable on well-formed
boards). -/
def step (R C : Nat) (s : SessionState) (a : Action) : Option SessionState :=
  if s.game_state = "running" then
    match a with
    | .chord r c =>
      (chord_reveal (R : Int) (C : Int) r c s.mine_grid s.adjacency_grid
        s.revealed s.flagged).map
        (fun r3 => applyOutcome R C s r3.1 r3.2.1 r3.2.2)
    | .reveal r c regen =>
      (reveal_cell (R : Int) (C : Int) r c (firstClickAdjust s r c regen).mine_grid
        (firstClickAdjust s r c regen).adjacency_grid
        (firstClickAdjust s r c regen).revealed
        (firstClickAdjust s r c regen).flagged).map
        (fun r3 => applyOutcome R C (firstClickAdjust s r c regen) r3.1 r3.2.1 r3.2.2)
    | .flag r c =>
      if !(cellD false s.revealed r c) then
        some { s with flagged := setCell s.flagged r c (!(cellD false s.flagged r c)) }
      else some s
  else some s

/-- A sequence of dispatched actions. -/
def runTrace (R C : Nat) : SessionState → List Action → Option SessionState
  | s, [] => some s
  | s, a :: rest => (step R C s a).bind (fun s1 => runTrace R C s1 rest)

/-! ## Counting helpers -/

/-- Number of board positions of an `R` by `C` board satisfying `f`. -/
def countCells (R C : Nat) (f : Nat → Nat → Bool) : Nat :=
  ((all_positions R C).filter (fun p => f p.1 p.2)).length

/-- Number of true cells of a mine matrix (for a well-formed `R` by `C` matrix
this is the number of true entries). -/
def countTrue (R C : Nat) (g : Grid Bool) : Nat :=
  countCells R C (fun i j => cellD false g (i : Int) (j : Int))

/-- Number of cells that are revealed and not mined. -/
def countRevNonMine (R C : Nat) (mine_grid revealed : Grid Bool) : Nat :=
  countCells R C (fun i j =>
    cellD false revealed (i : Int) (j : Int) &&
      !(cellD false mine_grid (i : Int) (j : Int)))

/-- Contract of the mine grid installed by `reset`. -/
def MineGridOk (R C M : Nat) (g : Grid Bool) : Prop :=
  WFGrid R C g ∧ countTrue R C g = M

/-- Contract of the grid regenerated on the first-click path: a valid mine grid
whose clicked cell is excluded. -/
def RegenOk (R C M : Nat) (r c : Int) (g : Grid Bool) : Prop :=
  MineGridOk R C M g ∧ cellD false g r c = false

/-- Validity of a dispatched action: the pixel mapper only produces in-bounds
cells, and a regenerated grid satisfies the `create_mine_grid` contract. -/
def ValidAction (R C M : Nat) : Action → Prop
  | .reveal r c regen => 0 ≤ r ∧ r < (R : Int) ∧ 0 ≤ c ∧ c < (C : Int) ∧ RegenOk R C M r c regen
  | .chord r c => 0 ≤ r ∧ r < (R : Int) ∧ 0 ≤ c ∧ c < (C : Int)
  | .flag r c => 0 ≤ r ∧ r < (R : Int) ∧ 0 ≤ c ∧ c < (C : Int)

instance (R C M : Nat) (g : Grid Bool) : Decidable (MineGridOk R C M g) := by
  unfold MineGridOk
  infer_instance

instance (R C M : Nat) (r c : Int) (g : Grid Bool) : Decidable (RegenOk R C M r c g) := by
  unfold RegenOk
  infer_instance

instance (rows columns num_mines : Nat) (exclude sample : List (Nat × Nat)) :
    Decidable (SampleOk rows columns num_mines exclude sample) := by
  unfold SampleOk
  infer_instance

instance (R C M : Nat) (a : Action) : Decidable (ValidAction R C M a) := by
  cases a <;> simp only [ValidAction] <;> infer_instance

/-- The reachability relation of the flood fill: a cell is reached from the
stack directly, or is an in-bounds unmined neighbour of a reached cell that is
unrevealed, unflagged and has adjacency count zero. -/
inductive FloodReach (BR BC : Int) (mine_grid : Grid Bool) (adjacency_grid : Grid Int)
    (flagged : Grid Bool) : Grid Bool → List (Int × Int) → Int × Int → Prop where
  | base (revealed : Grid Bool) (stack : List (Int × Int)) (p : Int × Int)
      (hp : p ∈ stack) :
      FloodReach BR BC mine_grid adjacency_grid flagged revealed stack p
  | step (revealed : Grid Bool) (stack : List (Int × Int)) (p q : Int × Int)
      (hp : FloodReach BR BC mine_grid adjacency_grid flagged revealed stack p)
      (hrev : cellD false revealed p.1 p.2 = false)
      (hfl : cellD false flagged p.1 p.2 = false)
      (hadj : cellD 0 adjacency_grid p.1 p.2 = 0)
      (hq : q ∈ neighborsList BR BC p.1 p.2)
      (hm : cellD false mine_grid q.1 q.2 = false) :
      FloodReach BR BC mine_grid adjacency_grid flagged revealed stack q

/-! ## Lemmas about the Python list primitives -/

theorem pyIdx_of_nonneg {n : Nat} {i : Int} (h : 0 ≤ i) : pyIdx n i = i := by
  unfold pyIdx
  rw [if_neg (by omega)]

theorem length_pySet (xs : List α) (i : Int) (v : α) : (pySet xs i v).length = xs.length := by
  unfold pySet
  split
  · exact List.length_set xs _ _
  · rfl

theorem getD_set_eq_ite (l : List α) (n m : Nat) (v d : α) :
    (l.set n v).getD m d = if n = m ∧ n < l.length then v else l.getD m d := by
  rw [List.getD_eq_getElem?_getD, List.getD_eq_getElem?_getD, List.getElem?_set]
  by_cases h1 : n = m
  · subst h1
    by_cases h2 : n < l.length
    · simp [h2]
    · rw [if_pos rfl, if_neg h2, if_neg (by omega)]
      rw [List.getElem?_eq_none (by omega)]
  · rw [if_neg h1, if_neg (by tauto)]

theorem pyGetD_pySet (d v : α) (xs : List α) (i j : Int) :
    pyGetD d (pySet xs i v) j =
      if pyIdx xs.length i = pyIdx xs.length j ∧ 0 ≤ pyIdx xs.length j ∧
          pyIdx xs.length j < (xs.length : Int) then v
      else pyGetD d xs j := by
  unfold pyGetD
  rw [length_pySet]
  unfold pySet
  by_cases hi : 0 ≤ pyIdx xs.length i
  · rw [if_pos hi]
    by_cases hj : 0 ≤ pyIdx xs.length j
    · rw [if_pos hj, if_pos hj, getD_set_eq_ite]
      have htn : ((pyIdx xs.length i).toNat = (pyIdx xs.length j).toNat ∧
          (pyIdx xs.length i).toNat < xs.length) ↔
          (pyIdx xs.length i = pyIdx xs.length j ∧ 0 ≤ pyIdx xs.length j ∧
            pyIdx xs.length j < (xs.length : Int)) := by omega
      simp only [htn]
    · rw [if_neg hj, if_neg hj, if_neg (by tauto)]
  · rw [if_neg hi]
    have : ¬(pyIdx xs.length i = pyIdx xs.length j ∧ 0 ≤ pyIdx xs.length j ∧
        pyIdx xs.length j < (xs.length : Int)) := by omega
    rw [if_neg this]

theorem pyGetD_congr (d : α) (xs : List α) {i j : Int}
    (h : pyIdx xs.length i = pyIdx xs.length j) : pyGetD d xs i = pyGetD d xs j := by
  unfold pyGetD
  rw [h]

theorem pyGetD_default (d : α) (xs : List α) {i : Int}
    (h : ¬(0 ≤ pyIdx xs.length i ∧ pyIdx xs.length i < (xs.length : Int))) :
    pyGetD d xs i = d := by
  unfold pyGetD
  by_cases h0 : 0 ≤ pyIdx xs.length i
  · rw [if_pos h0, List.getD_eq_getElem?_getD, List.getElem?_eq_none (by omega)]
    rfl
  · rw [if_neg h0]

theorem pyGetD_nil (d : α) (i : Int) : pyGetD d ([] : List α) i = d := by
  apply pyGetD_default
  simp only [List.length_nil, Nat.cast_zero]
  unfold pyIdx
  split <;> omega

/-! ## Lemmas about matrix reads and writes -/

theorem WFGrid.row_length {R C : Nat} {g : Grid α} (hg : WFGrid R C g) {r : Int}
    (h1 : 0 ≤ pyIdx R r) (h2 : pyIdx R r < (R : Int)) :
    (pyGetD [] g r).length = C := by
  obtain ⟨hlen, hrow⟩ := hg
  subst hlen
  unfold pyGetD
  rw [if_pos h1]
  have hn : (pyIdx g.length r).toNat < g.length := by omega
  rw [List.getD_eq_getElem g [] hn]
  exact hrow _ (List.getElem_mem hn)

theorem WFGrid.row_default {R C : Nat} {g : Grid α} (hg : WFGrid R C g) {r : Int}
    (h : ¬(0 ≤ pyIdx R r ∧ pyIdx R r < (R : Int))) :
    pyGetD [] g r = [] := by
  apply pyGetD_default
  rw [hg.1]
  exact h

theorem cellD_setCell (d v : α) (g : Grid α) (r c i j : Int) :
    cellD d (setCell g r c v) i j =
      if pyIdx g.length r = pyIdx g.length i ∧ 0 ≤ pyIdx g.length i ∧
          pyIdx g.length i < (g.length : Int) ∧
          pyIdx (pyGetD [] g r).length c = pyIdx (pyGetD [] g r).length j ∧
          0 ≤ pyIdx (pyGetD [] g r).length j ∧
          pyIdx (pyGetD [] g r).length j < ((pyGetD [] g r).length : Int)
      then v else cellD d g i j := by
  unfold cellD setCell
  rw [pyGetD_pySet]
  by_cases hr : pyIdx g.length r = pyIdx g.length i ∧ 0 ≤ pyIdx g.length i ∧
      pyIdx g.length i < (g.length : Int)
  · rw [if_pos hr, pyGetD_pySet]
    have hrowsame : pyGetD ([] : List α) g i = pyGetD [] g r := pyGetD_congr _ _ hr.1.symm
    by_cases hc : pyIdx (pyGetD [] g r).length c = pyIdx (pyGetD [] g r).length j ∧
        0 ≤ pyIdx (pyGetD [] g r).length j ∧
        pyIdx (pyGetD [] g r).length j < ((pyGetD [] g r).length : Int)
    · rw [if_pos hc, if_pos (by tauto)]
    · rw [if_neg hc, if_neg (by tauto), hrowsame]
  · rw [if_neg hr, if_neg (by tauto)]

theorem cellD_setCell_wf {R C : Nat} {g : Grid α} (hg : WFGrid R C g) (d v : α)
    (r c i j : Int) :
    cellD d (setCell g r c v) i j =
      if pyIdx R r = pyIdx R i ∧ 0 ≤ pyIdx R i ∧ pyIdx R i < (R : Int) ∧
          pyIdx C c = pyIdx C j ∧ 0 ≤ pyIdx C j ∧ pyIdx C j < (C : Int)
      then v else cellD d g i j := by
  rw [cellD_setCell]
  have hlen := hg.1
  by_cases hr : pyIdx R r = pyIdx R i ∧ 0 ≤ pyIdx R i ∧ pyIdx R i < (R : Int)
  · have hrl : (pyGetD [] g r).length = C :=
      hg.row_length (by rw [hr.1]; exact hr.2.1) (by rw [hr.1]; exact hr.2.2)
    rw [hlen, hrl]
  · rw [hlen]
    rw [if_neg (by tauto), if_neg (by tauto)]

theorem cellD_congr_wf {R C : Nat} {g : Grid α} (hg : WFGrid R C g) (d : α)
    {i j i2 j2 : Int} (h1 : pyIdx R i = pyIdx R i2) (h2 : pyIdx C j = pyIdx C j2) :
    cellD d g i j = cellD d g i2 j2 := by
  unfold cellD
  have hrow : pyGetD ([] : List α) g i = pyGetD [] g i2 :=
    pyGetD_congr _ _ (by rw [hg.1]; exact h1)
  rw [hrow]
  by_cases hb : 0 ≤ pyIdx R i2 ∧ pyIdx R i2 < (R : Int)
  · have hrl : (pyGetD [] g i2).length = C := hg.row_length hb.1 hb.2
    exact pyGetD_congr _ _ (by rw [hrl]; exact h2)
  · rw [hg.row_default hb, pyGetD_nil, pyGetD_nil]

theorem cellD_setCell_mono {g : Grid Bool} {r c i j : Int}
    (h : cellD false g i j = true) :
    cellD false (setCell g r c true) i j = true := by
  rw [cellD_setCell]
  split
  · rfl
  · exact h

theorem cellD_of_setCell_ne {R C : Nat} {rev : Grid Bool} (hrev : WFGrid R C rev)
    {β : Type} {m : Grid β} (hm : WFGrid R C m) (dm : β) {v : Bool} {r c i j : Int}
    (hne : cellD false (setCell rev r c v) i j ≠ cellD false rev i j) :
    cellD dm m i j = cellD dm m r c := by
  rw [cellD_setCell_wf hrev] at hne
  by_cases h : pyIdx R r = pyIdx R i ∧ 0 ≤ pyIdx R i ∧ pyIdx R i < (R : Int) ∧
      pyIdx C c = pyIdx C j ∧ 0 ≤ pyIdx C j ∧ pyIdx C j < (C : Int)
  · exact cellD_congr_wf hm dm h.1.symm h.2.2.2.1.symm
  · rw [if_neg h] at hne
    exact absurd rfl hne

theorem cellD_setCell_inb {R C : Nat} {g : Grid α} (hg : WFGrid R C g) (d v : α)
    {r c : Int} (hr : 0 ≤ r) (hr2 : r < (R : Int)) (hc : 0 ≤ c) (hc2 : c < (C : Int))
    (i j : Int) (hi : 0 ≤ i) (hi2 : i < (R : Int)) (hj : 0 ≤ j) (hj2 : j < (C : Int)) :
    cellD d (setCell g r c v) i j = if r = i ∧ c = j then v else cellD d g i j := by
  rw [cellD_setCell_wf hg]
  have hcond : (pyIdx R r = pyIdx R i ∧ 0 ≤ pyIdx R i ∧ pyIdx R i < (R : Int) ∧
      pyIdx C c = pyIdx C j ∧ 0 ≤ pyIdx C j ∧ pyIdx C j < (C : Int)) ↔ (r = i ∧ c = j) := by
    rw [pyIdx_of_nonneg hr, pyIdx_of_nonneg hi, pyIdx_of_nonneg hc, pyIdx_of_nonneg hj]
    constructor
    · rintro ⟨a, -, -, b, -, -⟩; exact ⟨a, b⟩
    · rintro ⟨a, b⟩; exact ⟨a, hi, hi2, b, hj, hj2⟩
  simp only [hcond]

theorem cellD_setCell_self {R C : Nat} {g : Grid α} (hg : WFGrid R C g) (d v : α)
    {r c : Int} (hr : 0 ≤ r) (hr2 : r < (R : Int)) (hc : 0 ≤ c) (hc2 : c < (C : Int)) :
    cellD d (setCell g r c v) r c = v := by
  rw [cellD_setCell_inb hg d v hr hr2 hc hc2 r c hr hr2 hc hc2, if_pos ⟨rfl, rfl⟩]

theorem mem_pySet {xs : List α} {i : Int} {v a : α} (h : a ∈ pySet xs i v) :
    a ∈ xs ∨ a = v := by
  unfold pySet at h
  split at h
  · exact List.mem_or_eq_of_mem_set h
  · exact Or.inl h

theorem WFGrid.setCell {R C : Nat} {g : Grid α} (hg : WFGrid R C g) (r c : Int) (v : α) :
    WFGrid R C (Minesweeper.setCell g r c v) := by
  have hlen := hg.1
  constructor
  · rw [show Minesweeper.setCell g r c v = pySet g r (pySet (pyGetD [] g r) c v) from rfl,
      length_pySet, hlen]
  · intro row hrowmem
    have hmem : row ∈ pySet g r (pySet (pyGetD [] g r) c v) := hrowmem
    by_cases hb : 0 ≤ pyIdx R r ∧ pyIdx R r < (R : Int)
    · rcases mem_pySet hmem with h | h
      · exact hg.2 row h
      · subst h
        rw [length_pySet]
        exact hg.row_length hb.1 hb.2
    · have hnoop : pySet g r (pySet (pyGetD [] g r) c v) = g := by
        unfold pySet
        rw [hlen]
        by_cases h0 : 0 ≤ pyIdx R r
        · rw [if_pos h0]
          apply List.set_eq_of_length_le
          omega
        · rw [if_neg h0]
      rw [hnoop] at hmem
      exact hg.2 row hmem

/-! ## Counting lemmas -/

theorem length_filter_update [DecidableEq α] {l : List α} (hl : l.Nodup) {p : α}
    (hp : p ∈ l) {f g : α → Bool} (hfg : ∀ q ∈ l, q ≠ p → f q = g q)
    (hfp : f p = true) (hgp : g p = false) :
    (l.filter f).length = (l.filter g).length + 1 := by
  induction l with
  | nil => cases hp
  | cons a t ih =>
    rw [List.nodup_cons] at hl
    rcases List.mem_cons.mp hp with h | h
    · subst h
      rw [List.filter_cons, if_pos hfp, List.filter_cons, if_neg (by simp [hgp])]
      have : List.filter f t = List.filter g t := by
        apply List.filter_congr
        intro x hx
        exact hfg x (List.mem_cons_of_mem _ hx) (fun he => hl.1 (he ▸ hx))
      simp [this]
    · have hap : a ≠ p := fun he => hl.1 (he ▸ h)
      have hfa : f a = g a := hfg a (List.mem_cons_self a t) hap
      rw [List.filter_cons, List.filter_cons, hfa]
      by_cases hga : g a = true
      · rw [if_pos hga, if_pos hga]
        simp only [List.length_cons]
        rw [ih hl.2 h (fun q hq => hfg q (List.mem_cons_of_mem _ hq))]
      · rw [if_neg hga, if_neg hga]
        exact ih hl.2 h (fun q hq => hfg q (List.mem_cons_of_mem _ hq))

theorem all_positions_nodup (R C : Nat) : (all_positions R C).Nodup :=
  List.Nodup.product (List.nodup_range R) (List.nodup_range C)

theorem mem_all_positions {R C : Nat} {p : Nat × Nat} :
    p ∈ all_positions R C ↔ p.1 < R ∧ p.2 < C := by
  have hprod : all_positions R C = (List.range R) ×ˢ (List.range C) := rfl
  rw [hprod]
  rcases p with ⟨a, b⟩
  rw [List.mem_product]
  simp [List.mem_range]

theorem length_all_positions (R C : Nat) : (all_positions R C).length = R * C := by
  have hprod : all_positions R C = (List.range R) ×ˢ (List.range C) := rfl
  rw [hprod, List.length_product]
  simp

theorem countCells_congr {R C : Nat} {f g : Nat → Nat → Bool}
    (h : ∀ i j, i < R → j < C → f i j = g i j) :
    countCells R C f = countCells R C g := by
  unfold countCells
  congr 1
  apply List.filter_congr
  intro p hp
  rw [mem_all_positions] at hp
  exact h p.1 p.2 hp.1 hp.2

theorem countCells_update {R C : Nat} {f g : Nat → Nat → Bool} {a b : Nat}
    (ha : a < R) (hb : b < C)
    (hfg : ∀ i j, i < R → j < C → (i, j) ≠ (a, b) → f i j = g i j)
    (hf : f a b = true) (hg : g a b = false) :
    countCells R C f = countCells R C g + 1 := by
  unfold countCells
  have hmem : ((a, b) : Nat × Nat) ∈ all_positions R C := mem_all_positions.mpr ⟨ha, hb⟩
  refine length_filter_update (all_positions_nodup R C) hmem ?_ hf hg
  intro q hq hne
  rw [mem_all_positions] at hq
  apply hfg q.1 q.2 hq.1 hq.2
  intro hcontra
  apply hne
  rcases q with ⟨q1, q2⟩
  exact hcontra

theorem countCells_mono {R C : Nat} {f g : Nat → Nat → Bool}
    (h : ∀ i j, i < R → j < C → f i j = true → g i j = true) :
    countCells R C f ≤ countCells R C g := by
  unfold countCells
  rw [← List.countP_eq_length_filter, ← List.countP_eq_length_filter]
  apply List.countP_mono_left
  intro p hp
  rw [mem_all_positions] at hp
  exact h p.1 p.2 hp.1 hp.2

theorem countCells_le (R C : Nat) (f : Nat → Nat → Bool) :
    countCells R C f ≤ R * C := by
  unfold countCells
  rw [← length_all_positions R C]
  exact List.length_filter_le _ _

theorem countCells_eq_zero {R C : Nat} {f : Nat → Nat → Bool} :
    countCells R C f = 0 ↔ ∀ i j, i < R → j < C → f i j = false := by
  unfold countCells
  rw [List.length_eq_zero, List.filter_eq_nil_iff]
  constructor
  · intro h i j hi hj
    have := h (i, j) (mem_all_positions.mpr ⟨hi, hj⟩)
    simpa using this
  · intro h p hp
    rw [mem_all_positions] at hp
    simp [h p.1 p.2 hp.1 hp.2]

/-! ## Lemmas about the reveal loop -/

theorem revealLoop_mono {BR BC : Int} {mg : Grid Bool} {adj : Grid Int} {fl : Grid Bool} :
    ∀ (fuel : Nat) (rev : Grid Bool) (n : Nat) (stack : List (Int × Int))
      (res : Bool × Nat × Grid Bool),
      revealLoop BR BC mg adj fl fuel rev n stack = some res →
      ∀ i j, cellD false rev i j = true → cellD false res.2.2 i j = true := by
  intro fuel
  induction fuel with
  | zero =>
    intro rev n stack res h i j hij
    cases stack with
    | nil =>
      simp only [revealLoop] at h
      obtain rfl := Option.some.inj h
      exact hij
    | cons p rest =>
      simp only [revealLoop] at h
      exact Option.noConfusion h
  | succ fuel ih =>
    intro rev n stack res h i j hij
    cases stack with
    | nil =>
      simp only [revealLoop] at h
      obtain rfl := Option.some.inj h
      exact hij
    | cons p rest =>
      rcases p with ⟨cr, cc⟩
      simp only [revealLoop] at h
      by_cases hskip : (cellD false rev cr cc || cellD false fl cr cc) = true
      · rw [if_pos hskip] at h
        exact ih rev n rest res h i j hij
      · rw [if_neg hskip] at h
        by_cases hmine : cellD false mg cr cc = true
        · rw [if_pos hmine] at h
          obtain rfl := Option.some.inj h
          exact cellD_setCell_mono hij
        · rw [if_neg hmine] at h
          by_cases hadj : cellD 0 adj cr cc = 0
          · rw [if_pos hadj] at h
            exact ih _ _ _ res h i j (cellD_setCell_mono hij)
          · rw [if_neg hadj] at h
            exact ih _ _ _ res h i j (cellD_setCell_mono hij)

/-- The in-bounds predicate for a cell of an `R` by `C` board. -/
def inBounds (R C : Nat) (p : Int × Int) : Prop :=
  0 ≤ p.1 ∧ p.1 < (R : Int) ∧ 0 ≤ p.2 ∧ p.2 < (C : Int)

instance (R C : Nat) (p : Int × Int) : Decidable (inBounds R C p) := by
  unfold inBounds
  infer_instance

theorem mem_neighborsList_bounds {BR BC r c : Int} {q : Int × Int}
    (hq : q ∈ neighborsList BR BC r c) :
    0 ≤ q.1 ∧ q.1 < BR ∧ 0 ≤ q.2 ∧ q.2 < BC := by
  unfold neighborsList at hq
  rw [List.mem_filterMap] at hq
  obtain ⟨o, -, ho⟩ := hq
  by_cases hcond : 0 ≤ r + o.1 ∧ r + o.1 < BR ∧ 0 ≤ c + o.2 ∧ c + o.2 < BC
  · rw [if_pos hcond] at ho
    obtain rfl := Option.some.inj ho
    exact hcond
  · rw [if_neg hcond] at ho
    exact Option.noConfusion ho

theorem length_neighborsList_le (BR BC r c : Int) :
    (neighborsList BR BC r c).length ≤ 8 :=
  le_trans (List.length_filterMap_le _ _) (by decide)

theorem length_neighborPushes_le (BR BC : Int) (mg rev : Grid Bool) (r c : Int) :
    (neighborPushes BR BC mg rev r c).length ≤ 8 :=
  le_trans (List.length_filter_le _ _) (length_neighborsList_le BR BC r c)

theorem mem_neighborPushes {BR BC : Int} {mg rev : Grid Bool} {r c : Int} {q : Int × Int} :
    q ∈ neighborPushes BR BC mg rev r c ↔
      q ∈ neighborsList BR BC r c ∧ cellD false rev q.1 q.2 = false ∧
        cellD false mg q.1 q.2 = false := by
  unfold neighborPushes
  rw [List.mem_filter, Bool.and_eq_true, Bool.not_eq_true', Bool.not_eq_true']

/-! ## Transfer lemmas for the flood-fill reachability relation -/

theorem floodReach_nil {BR BC : Int} {mg : Grid Bool} {adj : Grid Int} {fl rev : Grid Bool}
    {q : Int × Int} (h : FloodReach BR BC mg adj fl rev [] q) : False := by
  generalize hstk : ([] : List (Int × Int)) = stack at h
  induction h with
  | base p hp => rw [← hstk] at hp; exact List.not_mem_nil p hp
  | step _ _ _ _ _ _ _ _ ih => exact ih

theorem floodReach_stack_subset {BR BC : Int} {mg : Grid Bool} {adj : Grid Int}
    {fl rev : Grid Bool} {stack stack2 : List (Int × Int)} {q : Int × Int}
    (hsub : ∀ x ∈ stack, x ∈ stack2)
    (h : FloodReach BR BC mg adj fl rev stack q) :
    FloodReach BR BC mg adj fl rev stack2 q := by
  induction h with
  | base p hp => exact FloodReach.base _ _ p (hsub p hp)
  | step p q _ hrev hfl hadj hq hm ih =>
    exact FloodReach.step _ _ p q ih hrev hfl hadj hq hm

theorem floodReach_inBounds {R C : Nat} {BR BC : Int} {mg : Grid Bool} {adj : Grid Int}
    {fl rev : Grid Bool} {stack : List (Int × Int)} {q : Int × Int}
    (hBR : BR ≤ (R : Int)) (hBC : BC ≤ (C : Int))
    (hstk : ∀ x ∈ stack, inBounds R C x)
    (h : FloodReach BR BC mg adj fl rev stack q) : inBounds R C q := by
  induction h with
  | base p hp => exact hstk p hp
  | step p q _ _ _ _ hq _ _ =>
    have := mem_neighborsList_bounds hq
    exact ⟨this.1, by omega, this.2.2.1, by omega⟩

theorem floodReach_skip {BR BC : Int} {mg : Grid Bool} {adj : Grid Int}
    {fl rev : Grid Bool} {p : Int × Int} {rest : List (Int × Int)} {q : Int × Int}
    (hd : cellD false rev p.1 p.2 = true ∨ cellD false fl p.1 p.2 = true)
    (h : FloodReach BR BC mg adj fl rev (p :: rest) q) :
    FloodReach BR BC mg adj fl rev rest q ∨ q = p := by
  generalize hstk : p :: rest = stack at h
  induction h with
  | base x hp =>
    rw [← hstk] at hp
    rcases List.mem_cons.mp hp with h1 | h1
    · exact Or.inr h1
    · exact Or.inl (FloodReach.base _ _ x h1)
  | step x y hx hrev hfl hadj hy hm ih =>
    rcases ih with h1 | h1
    · exact Or.inl (FloodReach.step _ _ x y h1 hrev hfl hadj hy hm)
    · subst h1
      rcases hd with h2 | h2
      · rw [hrev] at h2; exact Bool.noConfusion h2
      · rw [hfl] at h2; exact Bool.noConfusion h2

theorem bool_eq_false {b : Bool} (h : ¬ b = true) : b = false := by
  cases b
  · rfl
  · exact absurd rfl h

theorem floodReach_fwd_adj0 {R C : Nat} {BR BC : Int} {mg : Grid Bool} {adj : Grid Int}
    {fl rev : Grid Bool} {p : Int × Int} {rest : List (Int × Int)}
    (hrev : WFGrid R C rev) (hBR : BR ≤ (R : Int)) (hBC : BC ≤ (C : Int))
    (hstkInb : ∀ x ∈ (p :: rest), inBounds R C x)
    (hprev : cellD false rev p.1 p.2 = false)
    {q : Int × Int}
    (h : FloodReach BR BC mg adj fl rev (p :: rest) q) :
    cellD false (setCell rev p.1 p.2 true) q.1 q.2 = true ∨
      FloodReach BR BC mg adj fl (setCell rev p.1 p.2 true)
        ((neighborPushes BR BC mg (setCell rev p.1 p.2 true) p.1 p.2).reverse ++ rest) q := by
  have hpinb := hstkInb p (List.mem_cons_self _ _)
  generalize hstk : p :: rest = stack at h
  have hstkInb2 : ∀ z ∈ stack, inBounds R C z := by rw [← hstk]; exact hstkInb
  induction h with
  | base x hp =>
    rw [← hstk] at hp
    rcases List.mem_cons.mp hp with h1 | h1
    · subst h1
      left
      exact cellD_setCell_self hrev false true hpinb.1 hpinb.2.1 hpinb.2.2.1 hpinb.2.2.2
    · right
      exact FloodReach.base _ _ x (by rw [List.mem_append, List.mem_reverse]; exact Or.inr h1)
  | step x y hx hxrev hxfl hxadj hy hym ih =>
    have hxinb : inBounds R C x := floodReach_inBounds hBR hBC hstkInb2 hx
    by_cases hx1 : cellD false (setCell rev p.1 p.2 true) x.1 x.2 = true
    · have hxp : x = p := by
        have hchar := cellD_setCell_inb hrev false true hpinb.1 hpinb.2.1 hpinb.2.2.1
          hpinb.2.2.2 x.1 x.2 hxinb.1 hxinb.2.1 hxinb.2.2.1 hxinb.2.2.2
        rw [hchar] at hx1
        by_cases hcase : p.1 = x.1 ∧ p.2 = x.2
        · exact Prod.ext hcase.1.symm hcase.2.symm
        · rw [if_neg hcase] at hx1
          rw [hx1] at hxrev
          exact Bool.noConfusion hxrev
      subst hxp
      by_cases hy1 : cellD false (setCell rev x.1 x.2 true) y.1 y.2 = true
      · exact Or.inl hy1
      · right
        apply FloodReach.base
        rw [List.mem_append, List.mem_reverse]
        left
        rw [mem_neighborPushes]
        exact ⟨hy, bool_eq_false hy1, hym⟩
    · rcases ih with h1 | h1
      · exact absurd h1 hx1
      · exact Or.inr (FloodReach.step _ _ x y h1 (bool_eq_false hx1) hxfl hxadj hy hym)

theorem floodReach_fwd_pos {R C : Nat} {BR BC : Int} {mg : Grid Bool} {adj : Grid Int}
    {fl rev : Grid Bool} {p : Int × Int} {rest : List (Int × Int)}
    (hrev : WFGrid R C rev) (hBR : BR ≤ (R : Int)) (hBC : BC ≤ (C : Int))
    (hstkInb : ∀ x ∈ (p :: rest), inBounds R C x)
    (hprev : cellD false rev p.1 p.2 = false)
    (hpadj : ¬ cellD 0 adj p.1 p.2 = 0)
    {q : Int × Int}
    (h : FloodReach BR BC mg adj fl rev (p :: rest) q) :
    cellD false (setCell rev p.1 p.2 true) q.1 q.2 = true ∨
      FloodReach BR BC mg adj fl (setCell rev p.1 p.2 true) rest q := by
  have hpinb := hstkInb p (List.mem_cons_self _ _)
  generalize hstk : p :: rest = stack at h
  have hstkInb2 : ∀ z ∈ stack, inBounds R C z := by rw [← hstk]; exact hstkInb
  induction h with
  | base x hp =>
    rw [← hstk] at hp
    rcases List.mem_cons.mp hp with h1 | h1
    · subst h1
      left
      exact cellD_setCell_self hrev false true hpinb.1 hpinb.2.1 hpinb.2.2.1 hpinb.2.2.2
    · exact Or.inr (FloodReach.base _ _ x h1)
  | step x y hx hxrev hxfl hxadj hy hym ih =>
    have hxinb : inBounds R C x := floodReach_inBounds hBR hBC hstkInb2 hx
    by_cases hx1 : cellD false (setCell rev p.1 p.2 true) x.1 x.2 = true
    · have hxp : x = p := by
        have hchar := cellD_setCell_inb hrev false true hpinb.1 hpinb.2.1 hpinb.2.2.1
          hpinb.2.2.2 x.1 x.2 hxinb.1 hxinb.2.1 hxinb.2.2.1 hxinb.2.2.2
        rw [hchar] at hx1
        by_cases hcase : p.1 = x.1 ∧ p.2 = x.2
        · exact Prod.ext hcase.1.symm hcase.2.symm
        · rw [if_neg hcase] at hx1
          rw [hx1] at hxrev
          exact Bool.noConfusion hxrev
      rw [hxp] at hxadj
      exact absurd hxadj hpadj
    · rcases ih with h1 | h1
      · exact absurd h1 hx1
      · exact Or.inr (FloodReach.step _ _ x y h1 (bool_eq_false hx1) hxfl hxadj hy hym)

theorem floodReach_bwd_adj0 {BR BC : Int} {mg : Grid Bool} {adj : Grid Int}
    {fl rev : Grid Bool} {a b : Int} {rest : List (Int × Int)}
    (hprev : cellD false rev a b = false)
    (hpfl : cellD false fl a b = false)
    (hpadj : cellD 0 adj a b = 0)
    {q : Int × Int}
    (h : FloodReach BR BC mg adj fl (setCell rev a b true)
      ((neighborPushes BR BC mg (setCell rev a b true) a b).reverse ++ rest) q) :
    FloodReach BR BC mg adj fl rev ((a, b) :: rest) q := by
  induction h with
  | base x hp =>
    rw [List.mem_append, List.mem_reverse] at hp
    rcases hp with h1 | h1
    · rw [mem_neighborPushes] at h1
      exact FloodReach.step _ _ (a, b) x
        (FloodReach.base _ _ (a, b) (List.mem_cons_self _ _))
        hprev hpfl hpadj h1.1 h1.2.2
    · exact FloodReach.base _ _ x (List.mem_cons_of_mem _ h1)
  | step x y hx hxrev hxfl hxadj hy hym ih =>
    have hxrev0 : cellD false rev x.1 x.2 = false := by
      by_cases hc : cellD false rev x.1 x.2 = true
      · rw [cellD_setCell_mono hc] at hxrev
        exact Bool.noConfusion hxrev
      · exact bool_eq_false hc
    exact FloodReach.step _ _ x y ih hxrev0 hxfl hxadj hy hym

theorem floodReach_bwd_weaken {BR BC : Int} {mg : Grid Bool} {adj : Grid Int}
    {fl rev : Grid Bool} {p : Int × Int} {rest : List (Int × Int)} {a b : Int}
    {q : Int × Int}
    (h : FloodReach BR BC mg adj fl (setCell rev a b true) rest q) :
    FloodReach BR BC mg adj fl rev (p :: rest) q := by
  induction h with
  | base x hp => exact FloodReach.base _ _ x (List.mem_cons_of_mem _ hp)
  | step x y hx hxrev hxfl hxadj hy hym ih =>
    have hxrev0 : cellD false rev x.1 x.2 = false := by
      by_cases hc : cellD false rev x.1 x.2 = true
      · rw [cellD_setCell_mono hc] at hxrev
        exact Bool.noConfusion hxrev
      · exact bool_eq_false hc
    exact FloodReach.step _ _ x y ih hxrev0 hxfl hxadj hy hym

theorem not_or_true {a b : Bool} (h : ¬ (a || b) = true) : a = false ∧ b = false := by
  cases a <;> cases b <;> simp_all

theorem cellD_setCell_cast {R C : Nat} {g : Grid α} (hg : WFGrid R C g) (d v : α)
    {cr cc : Int} (hinb : inBounds R C (cr, cc)) {i j : Nat} (hi : i < R) (hj : j < C) :
    cellD d (setCell g cr cc v) (i : Int) (j : Int) =
      if cr = (i : Int) ∧ cc = (j : Int) then v else cellD d g (i : Int) (j : Int) := by
  obtain ⟨h1, h2, h3, h4⟩ := hinb
  exact cellD_setCell_inb hg d v h1 h2 h3 h4 _ _ (by omega) (by exact_mod_cast hi)
    (by omega) (by exact_mod_cast hj)

theorem countTrue_setCell {R C : Nat} {rev : Grid Bool} (hrev : WFGrid R C rev)
    {cr cc : Int} (hinb : inBounds R C (cr, cc))
    (hold : cellD false rev cr cc = false) :
    countTrue R C (setCell rev cr cc true) = countTrue R C rev + 1 := by
  obtain ⟨h1, h2, h3, h4⟩ := hinb
  have e1 : ((cr.toNat : Nat) : Int) = cr := by omega
  have e2 : ((cc.toNat : Nat) : Int) = cc := by omega
  show countCells R C (fun i j => cellD false (setCell rev cr cc true) (i : Int) (j : Int)) =
    countCells R C (fun i j => cellD false rev (i : Int) (j : Int)) + 1
  refine countCells_update (show cr.toNat < R by omega) (show cc.toNat < C by omega) ?_ ?_ ?_
  · intro i j hi hj hne
    show cellD false (setCell rev cr cc true) (i : Int) (j : Int) =
      cellD false rev (i : Int) (j : Int)
    rw [cellD_setCell_cast hrev false true ⟨h1, h2, h3, h4⟩ hi hj]
    rw [if_neg]
    rintro ⟨ec1, ec2⟩
    apply hne
    rw [Prod.mk.injEq]
    omega
  · show cellD false (setCell rev cr cc true) ((cr.toNat : Nat) : Int) ((cc.toNat : Nat) : Int) = true
    rw [e1, e2]
    exact cellD_setCell_self hrev false true h1 h2 h3 h4
  · show cellD false rev ((cr.toNat : Nat) : Int) ((cc.toNat : Nat) : Int) = false
    rw [e1, e2]
    exact hold

theorem countRevNonMine_setCell {R C : Nat} {mg rev : Grid Bool} (hrev : WFGrid R C rev)
    {cr cc : Int} (hinb : inBounds R C (cr, cc))
    (hold : cellD false rev cr cc = false) (hmine : cellD false mg cr cc = false) :
    countRevNonMine R C mg (setCell rev cr cc true) = countRevNonMine R C mg rev + 1 := by
  obtain ⟨h1, h2, h3, h4⟩ := hinb
  have e1 : ((cr.toNat : Nat) : Int) = cr := by omega
  have e2 : ((cc.toNat : Nat) : Int) = cc := by omega
  show countCells R C (fun i j => cellD false (setCell rev cr cc true) (i : Int) (j : Int) &&
      !(cellD false mg (i : Int) (j : Int))) =
    countCells R C (fun i j => cellD false rev (i : Int) (j : Int) &&
      !(cellD false mg (i : Int) (j : Int))) + 1
  refine countCells_update (show cr.toNat < R by omega) (show cc.toNat < C by omega) ?_ ?_ ?_
  · intro i j hi hj hne
    show (cellD false (setCell rev cr cc true) (i : Int) (j : Int) &&
        !(cellD false mg (i : Int) (j : Int))) =
      (cellD false rev (i : Int) (j : Int) && !(cellD false mg (i : Int) (j : Int)))
    rw [cellD_setCell_cast hrev false true ⟨h1, h2, h3, h4⟩ hi hj]
    rw [if_neg]
    rintro ⟨ec1, ec2⟩
    apply hne
    rw [Prod.mk.injEq]
    omega
  · show (cellD false (setCell rev cr cc true) ((cr.toNat : Nat) : Int) ((cc.toNat : Nat) : Int) &&
      !(cellD false mg ((cr.toNat : Nat) : Int) ((cc.toNat : Nat) : Int))) = true
    rw [e1, e2, cellD_setCell_self hrev false true h1 h2 h3 h4, hmine]
    rfl
  · show (cellD false rev ((cr.toNat : Nat) : Int) ((cc.toNat : Nat) : Int) &&
      !(cellD false mg ((cr.toNat : Nat) : Int) ((cc.toNat : Nat) : Int))) = false
    rw [e1, e2, hold]
    rfl

theorem countUnrev_setCell {R C : Nat} {rev : Grid Bool} (hrev : WFGrid R C rev)
    {cr cc : Int} (hinb : inBounds R C (cr, cc))
    (hold : cellD false rev cr cc = false) :
    countCells R C (fun i j => !(cellD false rev (i : Int) (j : Int))) =
      countCells R C
        (fun i j => !(cellD false (setCell rev cr cc true) (i : Int) (j : Int))) + 1 := by
  obtain ⟨h1, h2, h3, h4⟩ := hinb
  have e1 : ((cr.toNat : Nat) : Int) = cr := by omega
  have e2 : ((cc.toNat : Nat) : Int) = cc := by omega
  refine countCells_update (show cr.toNat < R by omega) (show cc.toNat < C by omega) ?_ ?_ ?_
  · intro i j hi hj hne
    show (!(cellD false rev (i : Int) (j : Int))) =
      (!(cellD false (setCell rev cr cc true) (i : Int) (j : Int)))
    rw [cellD_setCell_cast hrev false true ⟨h1, h2, h3, h4⟩ hi hj]
    rw [if_neg]
    rintro ⟨ec1, ec2⟩
    apply hne
    rw [Prod.mk.injEq]
    omega
  · show (!(cellD false rev ((cr.toNat : Nat) : Int) ((cc.toNat : Nat) : Int))) = true
    rw [e1, e2, hold]
    rfl
  · show (!(cellD false (setCell rev cr cc true) ((cr.toNat : Nat) : Int)
      ((cc.toNat : Nat) : Int))) = false
    rw [e1, e2, cellD_setCell_self hrev false true h1 h2 h3 h4]
    rfl

/-- When every cell on the stack is unmined, the loop never reports a mine hit,
preserves well-formedness of the revealed matrix, and never reveals any mined
cell that was unrevealed. -/
theorem revealLoop_nomine {R C : Nat} {BR BC : Int} {mg : Grid Bool} {adj : Grid Int}
    {fl : Grid Bool} (hmg : WFGrid R C mg) :
    ∀ (fuel : Nat) (rev : Grid Bool) (n : Nat) (stack : List (Int × Int))
      (res : Bool × Nat × Grid Bool),
      WFGrid R C rev →
      (∀ p ∈ stack, cellD false mg p.1 p.2 = false) →
      revealLoop BR BC mg adj fl fuel rev n stack = some res →
      res.1 = false ∧ WFGrid R C res.2.2 ∧
        ∀ i j, cellD false mg i j = true → cellD false rev i j = false →
          cellD false res.2.2 i j = false := by
  intro fuel
  induction fuel with
  | zero =>
    intro rev n stack res hrev hstk h
    cases stack with
    | nil =>
      simp only [revealLoop] at h
      obtain rfl := Option.some.inj h
      exact ⟨rfl, hrev, fun i j _ h2 => h2⟩
    | cons p rest =>
      simp only [revealLoop] at h
      exact Option.noConfusion h
  | succ fuel ih =>
    intro rev n stack res hrev hstk h
    cases stack with
    | nil =>
      simp only [revealLoop] at h
      obtain rfl := Option.some.inj h
      exact ⟨rfl, hrev, fun i j _ h2 => h2⟩
    | cons p rest =>
      rcases p with ⟨cr, cc⟩
      have hcm : cellD false mg cr cc = false := hstk (cr, cc) (List.mem_cons_self _ _)
      simp only [revealLoop] at h
      by_cases hskip : (cellD false rev cr cc || cellD false fl cr cc) = true
      · rw [if_pos hskip] at h
        exact ih rev n rest res hrev (fun p hp => hstk p (List.mem_cons_of_mem _ hp)) h
      · rw [if_neg hskip] at h
        rw [if_neg (fun hcontra => by rw [hcm] at hcontra; exact Bool.noConfusion hcontra)]
          at h
        have hpres : ∀ i j, cellD false mg i j = true → cellD false rev i j = false →
            cellD false (setCell rev cr cc true) i j = false := by
          intro i j hm1 hm0
          by_cases hne : cellD false (setCell rev cr cc true) i j = cellD false rev i j
          · rw [hne]; exact hm0
          · have := cellD_of_setCell_ne hrev hmg false hne
            rw [hm1, hcm] at this
            exact Bool.noConfusion this
        by_cases hadj : cellD 0 adj cr cc = 0
        · rw [if_pos hadj] at h
          have hstk2 : ∀ p ∈ (neighborPushes BR BC mg (setCell rev cr cc true)
              cr cc).reverse ++ rest, cellD false mg p.1 p.2 = false := by
            intro p hp
            rw [List.mem_append, List.mem_reverse] at hp
            rcases hp with h1 | h1
            · exact (mem_neighborPushes.mp h1).2.2
            · exact hstk p (List.mem_cons_of_mem _ h1)
          obtain ⟨ha, hb, hc⟩ := ih _ _ _ res (hrev.setCell _ _ _) hstk2 h
          exact ⟨ha, hb, fun i j hm1 hm0 => hc i j hm1 (hpres i j hm1 hm0)⟩
        · rw [if_neg hadj] at h
          obtain ⟨ha, hb, hc⟩ := ih _ _ _ res (hrev.setCell _ _ _)
            (fun p hp => hstk p (List.mem_cons_of_mem _ hp)) h
          exact ⟨ha, hb, fun i j hm1 hm0 => hc i j hm1 (hpres i j hm1 hm0)⟩

/-- On a well-formed board with an in-bounds stack and dimensions equal to the
bound globals, the fuel bound `1 + 8 * number of unrevealed cells + stack
length` is enough for the loop to finish. -/
theorem revealLoop_isSome {R C : Nat} {mg : Grid Bool} {adj : Grid Int} {fl : Grid Bool} :
    ∀ (fuel : Nat) (rev : Grid Bool) (n : Nat) (stack : List (Int × Int)),
      WFGrid R C rev →
      (∀ p ∈ stack, inBounds R C p) →
      1 + 8 * countCells R C (fun i j => !(cellD false rev (i : Int) (j : Int))) +
        stack.length ≤ fuel →
      (revealLoop (R : Int) (C : Int) mg adj fl fuel rev n stack).isSome := by
  intro fuel
  induction fuel with
  | zero =>
    intro rev n stack _ _ hfuel
    cases stack with
    | nil => simp [revealLoop]
    | cons p rest =>
      rw [List.length_cons] at hfuel
      omega
  | succ fuel ih =>
    intro rev n stack hrev hstk hfuel
    cases stack with
    | nil => simp [revealLoop]
    | cons p rest =>
      rcases p with ⟨cr, cc⟩
      rw [List.length_cons] at hfuel
      have hinb : inBounds R C (cr, cc) := hstk (cr, cc) (List.mem_cons_self _ _)
      simp only [revealLoop]
      by_cases hskip : (cellD false rev cr cc || cellD false fl cr cc) = true
      · rw [if_pos hskip]
        exact ih rev n rest hrev (fun p hp => hstk p (List.mem_cons_of_mem _ hp)) (by omega)
      · rw [if_neg hskip]
        have hold : cellD false rev cr cc = false := (not_or_true hskip).1
        have hdec := countUnrev_setCell hrev hinb hold
        by_cases hmine : cellD false mg cr cc = true
        · rw [if_pos hmine]
          rfl
        · rw [if_neg hmine]
          by_cases hadj : cellD 0 adj cr cc = 0
          · rw [if_pos hadj]
            have hlen : ((neighborPushes (R : Int) (C : Int) mg (setCell rev cr cc true)
                cr cc).reverse ++ rest).length ≤ 8 + rest.length := by
              rw [List.length_append, List.length_reverse]
              have := length_neighborPushes_le (R : Int) (C : Int) mg
                (setCell rev cr cc true) cr cc
              omega
            apply ih _ _ _ (hrev.setCell _ _ _)
            · intro p hp
              rw [List.mem_append, List.mem_reverse] at hp
              rcases hp with h1 | h1
              · have := mem_neighborsList_bounds (mem_neighborPushes.mp h1).1
                exact ⟨this.1, this.2.1, this.2.2.1, this.2.2.2⟩
              · exact hstk p (List.mem_cons_of_mem _ h1)
            · omega
          · rw [if_neg hadj]
            exact ih _ _ _ (hrev.setCell _ _ _)
              (fun p hp => hstk p (List.mem_cons_of_mem _ hp)) (by omega)

/-- When the loop finishes without a mine hit, the returned count is exactly
the number of newly revealed cells, all of which are unmined. -/
theorem revealLoop_count {R C : Nat} {mg : Grid Bool} {adj : Grid Int} {fl : Grid Bool} :
    ∀ (fuel : Nat) (rev : Grid Bool) (n : Nat) (stack : List (Int × Int))
      (res : Bool × Nat × Grid Bool),
      WFGrid R C rev →
      (∀ p ∈ stack, inBounds R C p) →
      revealLoop (R : Int) (C : Int) mg adj fl fuel rev n stack = some res →
      res.1 = false →
      WFGrid R C res.2.2 ∧
        countTrue R C res.2.2 + n = countTrue R C rev + res.2.1 ∧
        countRevNonMine R C mg res.2.2 + n = countRevNonMine R C mg rev + res.2.1 := by
  intro fuel
  induction fuel with
  | zero =>
    intro rev n stack res hrev _ h _
    cases stack with
    | nil =>
      simp only [revealLoop] at h
      obtain rfl := Option.some.inj h
      exact ⟨hrev, rfl, rfl⟩
    | cons p rest =>
      simp only [revealLoop] at h
      exact Option.noConfusion h
  | succ fuel ih =>
    intro rev n stack res hrev hstk h hres
    cases stack with
    | nil =>
      simp only [revealLoop] at h
      obtain rfl := Option.some.inj h
      exact ⟨hrev, rfl, rfl⟩
    | cons p rest =>
      rcases p with ⟨cr, cc⟩
      have hinb : inBounds R C (cr, cc) := hstk (cr, cc) (List.mem_cons_self _ _)
      simp only [revealLoop] at h
      by_cases hskip : (cellD false rev cr cc || cellD false fl cr cc) = true
      · rw [if_pos hskip] at h
        exact ih rev n rest res hrev (fun p hp => hstk p (List.mem_cons_of_mem _ hp)) h hres
      · rw [if_neg hskip] at h
        have hold : cellD false rev cr cc = false := (not_or_true hskip).1
        by_cases hmine : cellD false mg cr cc = true
        · rw [if_pos hmine] at h
          obtain rfl := Option.some.inj h
          exact Bool.noConfusion hres
        · rw [if_neg hmine] at h
          have hct := countTrue_setCell hrev hinb hold
          have hcn := countRevNonMine_setCell hrev hinb hold (bool_eq_false hmine)
          by_cases hadj : cellD 0 adj cr cc = 0
          · rw [if_pos hadj] at h
            have hstk2 : ∀ p ∈ (neighborPushes (R : Int) (C : Int) mg
                (setCell rev cr cc true) cr cc).reverse ++ rest, inBounds R C p := by
              intro p hp
              rw [List.mem_append, List.mem_reverse] at hp
              rcases hp with h1 | h1
              · have := mem_neighborsList_bounds (mem_neighborPushes.mp h1).1
                exact ⟨this.1, this.2.1, this.2.2.1, this.2.2.2⟩
              · exact hstk p (List.mem_cons_of_mem _ h1)
            obtain ⟨ha, hb, hc⟩ := ih _ _ _ res (hrev.setCell _ _ _) hstk2 h hres
            exact ⟨ha, by omega, by omega⟩
          · rw [if_neg hadj] at h
            obtain ⟨ha, hb, hc⟩ := ih _ _ _ res (hrev.setCell _ _ _)
              (fun p hp => hstk p (List.mem_cons_of_mem _ hp)) h hres
            exact ⟨ha, by omega, by omega⟩

/-- Soundness of the loop: every in-bounds cell revealed by it was already
revealed or is reachable through the flood fill (and unflagged). -/
theorem revealLoop_sound {R C : Nat} {BR BC : Int} {mg : Grid Bool} {adj : Grid Int}
    {fl : Grid Bool} (hBR : BR ≤ (R : Int)) (hBC : BC ≤ (C : Int)) :
    ∀ (fuel : Nat) (rev : Grid Bool) (n : Nat) (stack : List (Int × Int))
      (res : Bool × Nat × Grid Bool),
      WFGrid R C rev →
      (∀ p ∈ stack, inBounds R C p) →
      revealLoop BR BC mg adj fl fuel rev n stack = some res →
      ∀ q : Int × Int, inBounds R C q →
        cellD false res.2.2 q.1 q.2 = true →
        cellD false rev q.1 q.2 = true ∨
          (FloodReach BR BC mg adj fl rev stack q ∧ cellD false fl q.1 q.2 = false) := by
  intro fuel
  induction fuel with
  | zero =>
    intro rev n stack res hrev hstk h q hq hqtrue
    cases stack with
    | nil =>
      simp only [revealLoop] at h
      obtain rfl := Option.some.inj h
      exact Or.inl hqtrue
    | cons p rest =>
      simp only [revealLoop] at h
      exact Option.noConfusion h
  | succ fuel ih =>
    intro rev n stack res hrev hstk h q hq hqtrue
    cases stack with
    | nil =>
      simp only [revealLoop] at h
      obtain rfl := Option.some.inj h
      exact Or.inl hqtrue
    | cons p rest =>
      rcases p with ⟨cr, cc⟩
      have hinb : inBounds R C (cr, cc) := hstk (cr, cc) (List.mem_cons_self _ _)
      simp only [revealLoop] at h
      by_cases hskip : (cellD false rev cr cc || cellD false fl cr cc) = true
      · rw [if_pos hskip] at h
        rcases ih rev n rest res hrev (fun p hp => hstk p (List.mem_cons_of_mem _ hp))
          h q hq hqtrue with h1 | ⟨h1, h2⟩
        · exact Or.inl h1
        · exact Or.inr ⟨floodReach_stack_subset (fun x hx => List.mem_cons_of_mem _ hx) h1, h2⟩
      · rw [if_neg hskip] at h
        have hold : cellD false rev cr cc = false := (not_or_true hskip).1
        have hfl0 : cellD false fl cr cc = false := (not_or_true hskip).2
        have hchar := cellD_setCell_inb hrev false true hinb.1 hinb.2.1 hinb.2.2.1
          hinb.2.2.2 q.1 q.2 hq.1 hq.2.1 hq.2.2.1 hq.2.2.2
        by_cases hmine : cellD false mg cr cc = true
        · rw [if_pos hmine] at h
          obtain rfl := Option.some.inj h
          rw [hchar] at hqtrue
          by_cases hcase : cr = q.1 ∧ cc = q.2
          · have hqp : q = (cr, cc) := Prod.ext hcase.1.symm hcase.2.symm
            subst hqp
            exact Or.inr ⟨FloodReach.base _ _ _ (List.mem_cons_self _ _), hfl0⟩
          · rw [if_neg hcase] at hqtrue
            exact Or.inl hqtrue
        · rw [if_neg hmine] at h
          by_cases hadj : cellD 0 adj cr cc = 0
          · rw [if_pos hadj] at h
            have hstk2 : ∀ p ∈ (neighborPushes BR BC mg
                (setCell rev cr cc true) cr cc).reverse ++ rest, inBounds R C p := by
              intro p hp
              rw [List.mem_append, List.mem_reverse] at hp
              rcases hp with h1 | h1
              · have := mem_neighborsList_bounds (mem_neighborPushes.mp h1).1
                exact ⟨this.1, by omega, this.2.2.1, by omega⟩
              · exact hstk p (List.mem_cons_of_mem _ h1)
            rcases ih _ _ _ res (hrev.setCell _ _ _) hstk2 h q hq hqtrue with h1 | ⟨h1, h2⟩
            · rw [hchar] at h1
              by_cases hcase : cr = q.1 ∧ cc = q.2
              · have hqp : q = (cr, cc) := Prod.ext hcase.1.symm hcase.2.symm
                subst hqp
                exact Or.inr ⟨FloodReach.base _ _ _ (List.mem_cons_self _ _), hfl0⟩
              · rw [if_neg hcase] at h1
                exact Or.inl h1
            · exact Or.inr ⟨floodReach_bwd_adj0 hold hfl0 hadj h1, h2⟩
          · rw [if_neg hadj] at h
            rcases ih _ _ _ res (hrev.setCell _ _ _)
              (fun p hp => hstk p (List.mem_cons_of_mem _ hp)) h q hq hqtrue with
              h1 | ⟨h1, h2⟩
            · rw [hchar] at h1
              by_cases hcase : cr = q.1 ∧ cc = q.2
              · have hqp : q = (cr, cc) := Prod.ext hcase.1.symm hcase.2.symm
                subst hqp
                exact Or.inr ⟨FloodReach.base _ _ _ (List.mem_cons_self _ _), hfl0⟩
              · rw [if_neg hcase] at h1
                exact Or.inl h1
            · exact Or.inr ⟨floodReach_bwd_weaken h1, h2⟩

/-- Completeness of the loop: with an unmined in-bounds stack, every unflagged
cell reachable through the flood fill ends up revealed. -/
theorem revealLoop_complete {R C : Nat} {BR BC : Int} {mg : Grid Bool} {adj : Grid Int}
    {fl : Grid Bool} (hBR : BR ≤ (R : Int)) (hBC : BC ≤ (C : Int)) :
    ∀ (fuel : Nat) (rev : Grid Bool) (n : Nat) (stack : List (Int × Int))
      (res : Bool × Nat × Grid Bool),
      WFGrid R C rev →
      (∀ p ∈ stack, inBounds R C p) →
      (∀ p ∈ stack, cellD false mg p.1 p.2 = false) →
      revealLoop BR BC mg adj fl fuel rev n stack = some res →
      ∀ q : Int × Int, FloodReach BR BC mg adj fl rev stack q →
        cellD false fl q.1 q.2 = false →
        cellD false res.2.2 q.1 q.2 = true := by
  intro fuel
  induction fuel with
  | zero =>
    intro rev n stack res hrev hstk hstkm h q hreach hqfl
    cases stack with
    | nil => exact absurd hreach floodReach_nil
    | cons p rest =>
      simp only [revealLoop] at h
      exact Option.noConfusion h
  | succ fuel ih =>
    intro rev n stack res hrev hstk hstkm h q hreach hqfl
    cases stack with
    | nil => exact absurd hreach floodReach_nil
    | cons p rest =>
      rcases p with ⟨cr, cc⟩
      have hinb : inBounds R C (cr, cc) := hstk (cr, cc) (List.mem_cons_self _ _)
      have hcm : cellD false mg cr cc = false := hstkm (cr, cc) (List.mem_cons_self _ _)
      simp only [revealLoop] at h
      by_cases hskip : (cellD false rev cr cc || cellD false fl cr cc) = true
      · rw [if_pos hskip] at h
        rcases floodReach_skip (by
            rcases Bool.or_eq_true_iff.mp hskip with h1 | h1
            · exact Or.inl h1
            · exact Or.inr h1) hreach with h1 | h1
        · exact ih rev n rest res hrev (fun p hp => hstk p (List.mem_cons_of_mem _ hp))
            (fun p hp => hstkm p (List.mem_cons_of_mem _ hp)) h q h1 hqfl
        · subst h1
          rcases Bool.or_eq_true_iff.mp hskip with h2 | h2
          · exact revealLoop_mono _ _ _ _ _ h _ _ h2
          · rw [h2] at hqfl
            exact Bool.noConfusion hqfl
      · rw [if_neg hskip] at h
        have hold : cellD false rev cr cc = false := (not_or_true hskip).1
        rw [if_neg (fun hcontra => by rw [hcm] at hcontra; exact Bool.noConfusion hcontra)]
          at h
        by_cases hadj : cellD 0 adj cr cc = 0
        · rw [if_pos hadj] at h
          rcases floodReach_fwd_adj0 hrev hBR hBC hstk hold hreach with h1 | h1
          · exact revealLoop_mono _ _ _ _ _ h _ _ h1
          · have hstk2 : ∀ p ∈ (neighborPushes BR BC mg
                (setCell rev cr cc true) cr cc).reverse ++ rest, inBounds R C p := by
              intro p hp
              rw [List.mem_append, List.mem_reverse] at hp
              rcases hp with h2 | h2
              · have := mem_neighborsList_bounds (mem_neighborPushes.mp h2).1
                exact ⟨this.1, by omega, this.2.2.1, by omega⟩
              · exact hstk p (List.mem_cons_of_mem _ h2)
            have hstkm2 : ∀ p ∈ (neighborPushes BR BC mg
                (setCell rev cr cc true) cr cc).reverse ++ rest,
                cellD false mg p.1 p.2 = false := by
              intro p hp
              rw [List.mem_append, List.mem_reverse] at hp
              rcases hp with h2 | h2
              · exact (mem_neighborPushes.mp h2).2.2
              · exact hstkm p (List.mem_cons_of_mem _ h2)
            exact ih _ _ _ res (hrev.setCell _ _ _) hstk2 hstkm2 h q h1 hqfl
        · rw [if_neg hadj] at h
          rcases floodReach_fwd_pos hrev hBR hBC hstk hold hadj hreach with h1 | h1
          · exact revealLoop_mono _ _ _ _ _ h _ _ h1
          · exact ih _ _ _ res (hrev.setCell _ _ _)
              (fun p hp => hstk p (List.mem_cons_of_mem _ hp))
              (fun p hp => hstkm p (List.mem_cons_of_mem _ hp)) h q h1 hqfl

/-! ## Lemmas about `reveal_cell` -/

theorem revealLoop_wf {R C : Nat} {BR BC : Int} {mg : Grid Bool} {adj : Grid Int}
    {fl : Grid Bool} :
    ∀ (fuel : Nat) (rev : Grid Bool) (n : Nat) (stack : List (Int × Int))
      (res : Bool × Nat × Grid Bool),
      WFGrid R C rev →
      revealLoop BR BC mg adj fl fuel rev n stack = some res →
      WFGrid R C res.2.2 := by
  intro fuel
  induction fuel with
  | zero =>
    intro rev n stack res hrev h
    cases stack with
    | nil =>
      simp only [revealLoop] at h
      obtain rfl := Option.some.inj h
      exact hrev
    | cons p rest =>
      simp only [revealLoop] at h
      exact Option.noConfusion h
  | succ fuel ih =>
    intro rev n stack res hrev h
    cases stack with
    | nil =>
      simp only [revealLoop] at h
      obtain rfl := Option.some.inj h
      exact hrev
    | cons p rest =>
      rcases p with ⟨cr, cc⟩
      simp only [revealLoop] at h
      by_cases hskip : (cellD false rev cr cc || cellD false fl cr cc) = true
      · rw [if_pos hskip] at h
        exact ih rev n rest res hrev h
      · rw [if_neg hskip] at h
        by_cases hmine : cellD false mg cr cc = true
        · rw [if_pos hmine] at h
          obtain rfl := Option.some.inj h
          exact hrev.setCell _ _ _
        · rw [if_neg hmine] at h
          by_cases hadj : cellD 0 adj cr cc = 0
          · rw [if_pos hadj] at h
            exact ih _ _ _ res (hrev.setCell _ _ _) h
          · rw [if_neg hadj] at h
            exact ih _ _ _ res (hrev.setCell _ _ _) h

theorem reveal_cell_wf {R C : Nat} {BR BC : Int} {mg : Grid Bool} {adj : Grid Int}
    {fl rev : Grid Bool} {r c : Int} {res : Bool × Nat × Grid Bool}
    (hrev : WFGrid R C rev)
    (h : reveal_cell BR BC r c mg adj rev fl = some res) :
    WFGrid R C res.2.2 := by
  unfold reveal_cell at h
  by_cases hg : (cellD false rev r c || cellD false fl r c) = true
  · rw [if_pos hg] at h
    obtain rfl := Option.some.inj h
    exact hrev
  · rw [if_neg hg] at h
    exact revealLoop_wf _ _ _ _ _ hrev h

theorem reveal_cell_mono {BR BC : Int} {mg : Grid Bool} {adj : Grid Int}
    {fl rev : Grid Bool} {r c : Int} {res : Bool × Nat × Grid Bool}
    (h : reveal_cell BR BC r c mg adj rev fl = some res) :
    ∀ i j, cellD false rev i j = true → cellD false res.2.2 i j = true := by
  unfold reveal_cell at h
  by_cases hg : (cellD false rev r c || cellD false fl r c) = true
  · rw [if_pos hg] at h
    obtain rfl := Option.some.inj h
    exact fun i j hij => hij
  · rw [if_neg hg] at h
    exact fun i j hij => revealLoop_mono _ _ _ _ _ h i j hij

theorem reveal_cell_isSome {R C : Nat} {mg : Grid Bool} {adj : Grid Int}
    {fl rev : Grid Bool} {r c : Int}
    (hrev : WFGrid R C rev) (hinb : inBounds R C (r, c)) :
    (reveal_cell (R : Int) (C : Int) r c mg adj rev fl).isSome := by
  unfold reveal_cell
  by_cases hg : (cellD false rev r c || cellD false fl r c) = true
  · rw [if_pos hg]
    rfl
  · rw [if_neg hg]
    apply revealLoop_isSome _ _ _ _ hrev
    · intro p hp
      rw [List.mem_singleton] at hp
      subst hp
      exact hinb
    · have hU := countCells_le R C (fun i j => !(cellD false rev (i : Int) (j : Int)))
      have hfuel : revealFuel (R : Int) (C : Int) = 8 * (R * C + 1) + 1 := by
        unfold revealFuel
        rw [Int.toNat_natCast, Int.toNat_natCast]
      rw [hfuel, List.length_singleton]
      omega

theorem reveal_cell_nomine {R C : Nat} {BR BC : Int} {mg : Grid Bool} {adj : Grid Int}
    {fl rev : Grid Bool} {r c : Int} {res : Bool × Nat × Grid Bool}
    (hmg : WFGrid R C mg) (hrev : WFGrid R C rev)
    (hm : cellD false mg r c = false)
    (h : reveal_cell BR BC r c mg adj rev fl = some res) :
    res.1 = false ∧
      ∀ i j, cellD false mg i j = true → cellD false rev i j = false →
        cellD false res.2.2 i j = false := by
  unfold reveal_cell at h
  by_cases hg : (cellD false rev r c || cellD false fl r c) = true
  · rw [if_pos hg] at h
    obtain rfl := Option.some.inj h
    exact ⟨rfl, fun i j _ h2 => h2⟩
  · rw [if_neg hg] at h
    have hstk : ∀ p ∈ [(r, c)], cellD false mg p.1 p.2 = false := by
      intro p hp
      rw [List.mem_singleton] at hp
      subst hp
      exact hm
    obtain ⟨h1, _, h3⟩ := revealLoop_nomine hmg _ _ _ _ res hrev hstk h
    exact ⟨h1, h3⟩

theorem reveal_cell_count {R C : Nat} {mg : Grid Bool} {adj : Grid Int}
    {fl rev : Grid Bool} {r c : Int} {res : Bool × Nat × Grid Bool}
    (hrev : WFGrid R C rev) (hinb : inBounds R C (r, c))
    (h : reveal_cell (R : Int) (C : Int) r c mg adj rev fl = some res)
    (hres : res.1 = false) :
    WFGrid R C res.2.2 ∧
      countTrue R C res.2.2 = countTrue R C rev + res.2.1 ∧
      countRevNonMine R C mg res.2.2 = countRevNonMine R C mg rev + res.2.1 := by
  unfold reveal_cell at h
  by_cases hg : (cellD false rev r c || cellD false fl r c) = true
  · rw [if_pos hg] at h
    obtain rfl := Option.some.inj h
    exact ⟨hrev, rfl, rfl⟩
  · rw [if_neg hg] at h
    have hstk : ∀ p ∈ [(r, c)], inBounds R C p := by
      intro p hp
      rw [List.mem_singleton] at hp
      subst hp
      exact hinb
    obtain ⟨h1, h2, h3⟩ := revealLoop_count _ _ _ _ res hrev hstk h hres
    exact ⟨h1, by omega, by omega⟩

theorem reveal_cell_seed {R C : Nat} {mg : Grid Bool} {adj : Grid Int}
    {fl rev : Grid Bool} {r c : Int} {res : Bool × Nat × Grid Bool}
    (hrev : WFGrid R C rev) (hinb : inBounds R C (r, c))
    (hflag : cellD false fl r c = false) (hm : cellD false mg r c = false)
    (h : reveal_cell (R : Int) (C : Int) r c mg adj rev fl = some res) :
    cellD false res.2.2 r c = true := by
  unfold reveal_cell at h
  by_cases hg : (cellD false rev r c || cellD false fl r c) = true
  · rw [if_pos hg] at h
    obtain rfl := Option.some.inj h
    rcases Bool.or_eq_true_iff.mp hg with h1 | h1
    · exact h1
    · rw [h1] at hflag
      exact Bool.noConfusion hflag
  · rw [if_neg hg] at h
    refine revealLoop_complete (le_refl _) (le_refl _) _ _ _ _ res hrev ?_ ?_ h (r, c)
      (FloodReach.base _ _ _ (List.mem_singleton.mpr rfl)) hflag
    · intro p hp
      rw [List.mem_singleton] at hp
      subst hp
      exact hinb
    · intro p hp
      rw [List.mem_singleton] at hp
      subst hp
      exact hm

/-! ## Lemmas about `chord_reveal` -/

theorem and_not_true {a b : Bool} (h : (!a && !b) = true) : a = false ∧ b = false := by
  cases a <;> cases b <;> simp_all

theorem not_and_not {a b : Bool} (h : ¬ (!a && !b) = true) : a = true ∨ b = true := by
  cases a <;> cases b <;> simp_all

theorem chordLoop_mono {BR BC : Int} {mg : Grid Bool} {adj : Grid Int} {fl : Grid Bool} :
    ∀ (lst : List (Int × Int)) (rev : Grid Bool) (t : Nat) (res : Bool × Nat × Grid Bool),
      chordLoop BR BC mg adj fl lst rev t = some res →
      ∀ i j, cellD false rev i j = true → cellD false res.2.2 i j = true := by
  intro lst
  induction lst with
  | nil =>
    intro rev t res h i j hij
    simp only [chordLoop] at h
    obtain rfl := Option.some.inj h
    exact hij
  | cons p rest ih =>
    intro rev t res h i j hij
    simp only [chordLoop] at h
    by_cases hgu : (!(cellD false fl p.1 p.2) && !(cellD false rev p.1 p.2)) = true
    · rw [if_pos hgu] at h
      cases hrc : reveal_cell BR BC p.1 p.2 mg adj rev fl with
      | none =>
        rw [hrc, Option.none_bind] at h
        exact Option.noConfusion h
      | some val =>
        rw [hrc, Option.some_bind] at h
        by_cases hhit : val.1 = true
        · rw [if_pos hhit] at h
          obtain rfl := Option.some.inj h
          exact reveal_cell_mono hrc i j hij
        · rw [if_neg hhit] at h
          exact ih _ _ res h i j (reveal_cell_mono hrc i j hij)
    · rw [if_neg hgu] at h
      exact ih _ _ res h i j hij

theorem chordLoop_isSome {R C : Nat} {mg : Grid Bool} {adj : Grid Int} {fl : Grid Bool} :
    ∀ (lst : List (Int × Int)) (rev : Grid Bool) (t : Nat),
      WFGrid R C rev → (∀ p ∈ lst, inBounds R C p) →
      (chordLoop (R : Int) (C : Int) mg adj fl lst rev t).isSome := by
  intro lst
  induction lst with
  | nil =>
    intro rev t _ _
    simp [chordLoop]
  | cons p rest ih =>
    intro rev t hrev hlst
    simp only [chordLoop]
    by_cases hgu : (!(cellD false fl p.1 p.2) && !(cellD false rev p.1 p.2)) = true
    · rw [if_pos hgu]
      cases hrc : reveal_cell (R : Int) (C : Int) p.1 p.2 mg adj rev fl with
      | none =>
        have := @reveal_cell_isSome R C mg adj fl rev p.1 p.2 hrev
          (hlst p (List.mem_cons_self _ _))
        rw [hrc] at this
        exact Bool.noConfusion this
      | some val =>
        rw [Option.some_bind]
        by_cases hhit : val.1 = true
        · rw [if_pos hhit]
          rfl
        · rw [if_neg hhit]
          exact ih _ _ (reveal_cell_wf hrev hrc)
            (fun q hq => hlst q (List.mem_cons_of_mem _ hq))
    · rw [if_neg hgu]
      exact ih _ _ hrev (fun q hq => hlst q (List.mem_cons_of_mem _ hq))

theorem chordLoop_count {R C : Nat} {mg : Grid Bool} {adj : Grid Int} {fl : Grid Bool} :
    ∀ (lst : List (Int × Int)) (rev : Grid Bool) (t : Nat) (res : Bool × Nat × Grid Bool),
      WFGrid R C rev → (∀ p ∈ lst, inBounds R C p) →
      chordLoop (R : Int) (C : Int) mg adj fl lst rev t = some res →
      res.1 = false →
      WFGrid R C res.2.2 ∧
        countTrue R C res.2.2 + t = countTrue R C rev + res.2.1 ∧
        countRevNonMine R C mg res.2.2 + t = countRevNonMine R C mg rev + res.2.1 := by
  intro lst
  induction lst with
  | nil =>
    intro rev t res hrev _ h _
    simp only [chordLoop] at h
    obtain rfl := Option.some.inj h
    exact ⟨hrev, rfl, rfl⟩
  | cons p rest ih =>
    intro rev t res hrev hlst h hres
    simp only [chordLoop] at h
    by_cases hgu : (!(cellD false fl p.1 p.2) && !(cellD false rev p.1 p.2)) = true
    · rw [if_pos hgu] at h
      cases hrc : reveal_cell (R : Int) (C : Int) p.1 p.2 mg adj rev fl with
      | none =>
        rw [hrc, Option.none_bind] at h
        exact Option.noConfusion h
      | some val =>
        rw [hrc, Option.some_bind] at h
        by_cases hhit : val.1 = true
        · rw [if_pos hhit] at h
          obtain rfl := Option.some.inj h
          exact Bool.noConfusion hres
        · rw [if_neg hhit] at h
          obtain ⟨hw1, he1, he2⟩ := reveal_cell_count hrev
            (hlst p (List.mem_cons_self _ _)) hrc (bool_eq_false hhit)
          obtain ⟨hwf, hf1, hf2⟩ := ih _ _ res hw1
            (fun q hq => hlst q (List.mem_cons_of_mem _ hq)) h hres
          exact ⟨hwf, by omega, by omega⟩
    · rw [if_neg hgu] at h
      exact ih _ _ res hrev (fun q hq => hlst q (List.mem_cons_of_mem _ hq)) h hres

theorem chordLoop_all {R C : Nat} {mg : Grid Bool} {adj : Grid Int} {fl : Grid Bool}
    (hmg : WFGrid R C mg) :
    ∀ (lst : List (Int × Int)) (rev : Grid Bool) (t : Nat) (res : Bool × Nat × Grid Bool),
      WFGrid R C rev → (∀ p ∈ lst, inBounds R C p) →
      (∀ p ∈ lst, cellD false fl p.1 p.2 = false → cellD false rev p.1 p.2 = false →
        cellD false mg p.1 p.2 = false) →
      chordLoop (R : Int) (C : Int) mg adj fl lst rev t = some res →
      res.1 = false ∧
        ∀ p ∈ lst, cellD false fl p.1 p.2 = false →
          cellD false res.2.2 p.1 p.2 = true := by
  intro lst
  induction lst with
  | nil =>
    intro rev t res _ _ _ h
    simp only [chordLoop] at h
    obtain rfl := Option.some.inj h
    exact ⟨rfl, fun p hp => absurd hp (List.not_mem_nil p)⟩
  | cons p rest ih =>
    intro rev t res hrev hlst hsafe h
    simp only [chordLoop] at h
    by_cases hgu : (!(cellD false fl p.1 p.2) && !(cellD false rev p.1 p.2)) = true
    · have hflp := (and_not_true hgu).1
      have hrvp := (and_not_true hgu).2
      have hmp : cellD false mg p.1 p.2 = false :=
        hsafe p (List.mem_cons_self _ _) hflp hrvp
      rw [if_pos hgu] at h
      cases hrc : reveal_cell (R : Int) (C : Int) p.1 p.2 mg adj rev fl with
      | none =>
        rw [hrc, Option.none_bind] at h
        exact Option.noConfusion h
      | some val =>
        rw [hrc, Option.some_bind] at h
        have hvhit : val.1 = false := (reveal_cell_nomine hmg hrev hmp hrc).1
        rw [if_neg (fun hcontra => by rw [hvhit] at hcontra; exact Bool.noConfusion hcontra)]
          at h
        have hsafe2 : ∀ q ∈ rest, cellD false fl q.1 q.2 = false →
            cellD false val.2.2 q.1 q.2 = false → cellD false mg q.1 q.2 = false := by
          intro q hq hqfl hq1
          apply hsafe q (List.mem_cons_of_mem _ hq) hqfl
          by_cases hc : cellD false rev q.1 q.2 = true
          · rw [reveal_cell_mono hrc q.1 q.2 hc] at hq1
            exact Bool.noConfusion hq1
          · exact bool_eq_false hc
        obtain ⟨hres1, hall⟩ := ih _ _ res (reveal_cell_wf hrev hrc)
          (fun q hq => hlst q (List.mem_cons_of_mem _ hq)) hsafe2 h
        refine ⟨hres1, ?_⟩
        intro q hq hqfl
        rcases List.mem_cons.mp hq with h1 | h1
        · subst h1
          have hseed := reveal_cell_seed hrev (hlst q (List.mem_cons_self _ _))
            hqfl hmp hrc
          exact chordLoop_mono _ _ _ res h q.1 q.2 hseed
        · exact hall q h1 hqfl
    · rw [if_neg hgu] at h
      obtain ⟨hres1, hall⟩ := ih _ _ res hrev
        (fun q hq => hlst q (List.mem_cons_of_mem _ hq))
        (fun q hq => hsafe q (List.mem_cons_of_mem _ hq)) h
      refine ⟨hres1, ?_⟩
      intro q hq hqfl
      rcases List.mem_cons.mp hq with h1 | h1
      · subst h1
        rcases not_and_not hgu with h2 | h2
        · rw [h2] at hqfl
          exact Bool.noConfusion hqfl
        · exact chordLoop_mono _ _ _ res h q.1 q.2 h2
      · exact hall q h1 hqfl

/-! ## Reads of freshly built matrices -/

theorem WFGrid_mk {R C : Nat} (f : Nat → Nat → α) :
    WFGrid R C ((List.range R).map (fun r => (List.range C).map (fun c => f r c))) := by
  constructor
  · rw [List.length_map, List.length_range]
  · intro row hrow
    rw [List.mem_map] at hrow
    obtain ⟨r, -, rfl⟩ := hrow
    rw [List.length_map, List.length_range]

theorem cellD_mk {R C : Nat} (f : Nat → Nat → α) (d : α) {i j : Int}
    (hi : 0 ≤ i) (hi2 : i < (R : Int)) (hj : 0 ≤ j) (hj2 : j < (C : Int)) :
    cellD d ((List.range R).map (fun r => (List.range C).map (fun c => f r c))) i j =
      f i.toNat j.toNat := by
  have hlen : ((List.range R).map
      (fun r => (List.range C).map (fun c => f r c))).length = R := by
    rw [List.length_map, List.length_range]
  have hiN : i.toNat < R := by omega
  have hjN : j.toNat < C := by omega
  unfold cellD
  have hrow : pyGetD [] ((List.range R).map (fun r => (List.range C).map (fun c => f r c))) i
      = (List.range C).map (fun c => f i.toNat c) := by
    unfold pyGetD
    rw [hlen, pyIdx_of_nonneg hi, if_pos hi]
    rw [List.getD_eq_getElem _ [] (by rw [hlen]; exact hiN)]
    rw [List.getElem_map, List.getElem_range]
  rw [hrow]
  unfold pyGetD
  rw [List.length_map, List.length_range, pyIdx_of_nonneg hj, if_pos hj]
  rw [List.getD_eq_getElem _ d (by rw [List.length_map, List.length_range]; exact hjN)]
  rw [List.getElem_map, List.getElem_range]

theorem WFGrid_mkGrid (R C : Nat) (v : α) : WFGrid R C (mkGrid R C v) :=
  WFGrid_mk (fun _ _ => v)

theorem cellD_mkGrid {R C : Nat} (v d : α) {i j : Int}
    (hi : 0 ≤ i) (hi2 : i < (R : Int)) (hj : 0 ≤ j) (hj2 : j < (C : Int)) :
    cellD d (mkGrid R C v) i j = v :=
  cellD_mk (fun _ _ => v) d hi hi2 hj hj2

theorem WFGrid_revealMines (R C : Nat) (mg rev : Grid Bool) :
    WFGrid R C (revealMines R C mg rev) :=
  WFGrid_mk (fun r c =>
    if cellD false mg (r : Int) (c : Int) then true
    else cellD false rev (r : Int) (c : Int))

theorem cellD_calc_adjacency {R C : Nat} {mg : Grid Bool} (hmg : WFGrid R C mg)
    (hR : 0 < R) {i j : Int}
    (hi : 0 ≤ i) (hi2 : i < (R : Int)) (hj : 0 ≤ j) (hj2 : j < (C : Int)) :
    cellD 0 (calc_adjacency mg) i j =
      if cellD false mg i j then (-1 : Int)
      else (((neighborsList (R : Int) (C : Int) i j).filter
        (fun p => cellD false mg p.1 p.2)).length : Int) := by
  have h1 : mg.length = R := hmg.1
  have h2 : (pyGetD [] mg 0).length = C := by
    apply hmg.row_length
    · rw [pyIdx_of_nonneg (by omega)]
    · rw [pyIdx_of_nonneg (by omega)]
      omega
  have e1 : ((i.toNat : Nat) : Int) = i := by omega
  have e2 : ((j.toNat : Nat) : Int) = j := by omega
  unfold calc_adjacency
  rw [h1, h2]
  rw [cellD_mk _ 0 hi hi2 hj hj2, e1, e2]

theorem countTrue_zero_read {R C : Nat} {rev : Grid Bool}
    (h : countTrue R C rev = 0) {r c : Int}
    (hr : 0 ≤ r) (hr2 : r < (R : Int)) (hc : 0 ≤ c) (hc2 : c < (C : Int)) :
    cellD false rev r c = false := by
  have e1 : ((r.toNat : Nat) : Int) = r := by omega
  have e2 : ((c.toNat : Nat) : Int) = c := by omega
  have := countCells_eq_zero.mp h r.toNat c.toNat (by omega) (by omega)
  rw [e1, e2] at this
  exact this

theorem and_true_left {a b : Bool} (h : (a && b) = true) : a = true := by
  cases a
  · exact Bool.noConfusion h
  · rfl

theorem countRevNonMine_le_countTrue (R C : Nat) (mg rev : Grid Bool) :
    countRevNonMine R C mg rev ≤ countTrue R C rev := by
  apply countCells_mono
  intro i j _ _ hc
  exact and_true_left hc

theorem chord_reveal_unrevealed {BR BC : Int} {mg : Grid Bool} {adj : Grid Int}
    {rev fl : Grid Bool} {r c : Int} (h : cellD false rev r c = false) :
    chord_reveal BR BC r c mg adj rev fl = some (false, 0, rev) := by
  unfold chord_reveal
  rw [if_pos (by rw [h]; rfl)]

theorem chord_reveal_count {R C : Nat} {mg : Grid Bool} {adj : Grid Int}
    {rev fl : Grid Bool} {r c : Int} {res : Bool × Nat × Grid Bool}
    (hrev : WFGrid R C rev)
    (h : chord_reveal (R : Int) (C : Int) r c mg adj rev fl = some res)
    (hres : res.1 = false) :
    WFGrid R C res.2.2 ∧
      countTrue R C res.2.2 = countTrue R C rev + res.2.1 ∧
      countRevNonMine R C mg res.2.2 = countRevNonMine R C mg rev + res.2.1 := by
  unfold chord_reveal at h
  by_cases h1 : (!(cellD false rev r c)) = true
  · rw [if_pos h1] at h
    obtain rfl := Option.some.inj h
    exact ⟨hrev, rfl, rfl⟩
  · rw [if_neg h1] at h
    by_cases h2 : cellD 0 adj r c ≤ 0
    · rw [if_pos h2] at h
      obtain rfl := Option.some.inj h
      exact ⟨hrev, rfl, rfl⟩
    · rw [if_neg h2] at h
      by_cases h3 : (((((neighborsList (R : Int) (C : Int) r c).filter
          (fun p => cellD false fl p.1 p.2)).length) : Int) ≠ cellD 0 adj r c)
      · rw [if_pos h3] at h
        obtain rfl := Option.some.inj h
        exact ⟨hrev, rfl, rfl⟩
      · rw [if_neg h3] at h
        have hlst : ∀ p ∈ neighborsList (R : Int) (C : Int) r c, inBounds R C p := by
          intro p hp
          have := mem_neighborsList_bounds hp
          exact ⟨this.1, this.2.1, this.2.2.1, this.2.2.2⟩
        obtain ⟨ha, hb, hc⟩ := chordLoop_count _ _ _ res hrev hlst h hres
        exact ⟨ha, by omega, by omega⟩

/-! ## The session invariant of `main` -/

theorem and_true_right {a b : Bool} (h : (a && b) = true) : b = true := by
  cases b
  · cases a <;> exact Bool.noConfusion h
  · rfl

theorem not_true_to_false {b : Bool} (h : (!b) = true) : b = false := by
  cases b
  · rfl
  · exact Bool.noConfusion h

theorem applyOutcome_hit (R C : Nat) (s : SessionState) (opened : Nat)
    (rev1 : Grid Bool) :
    applyOutcome R C s true opened rev1 =
      { s with revealed := revealMines R C s.mine_grid rev1, game_state := "lost" } := rfl

theorem applyOutcome_nohit (R C : Nat) (s : SessionState) (opened : Nat)
    (rev1 : Grid Bool) :
    applyOutcome R C s false opened rev1 =
      { s with revealed := rev1,
               remaining_safe := s.remaining_safe - (opened : Int),
               game_state :=
                 if s.remaining_safe - (opened : Int) = 0 then "won"
                 else s.game_state } := rfl

/-- The invariant maintained by the event loop: the board matrices stay
rectangular, nothing is revealed while the first click is still pending, and —
while the game is running — the remaining-safe counter plus the number of
revealed unmined cells equals the number of safe cells of the board. -/
def Inv (R C M : Nat) (s : SessionState) : Prop :=
  WFGrid R C s.revealed ∧ WFGrid R C s.mine_grid ∧
    (s.is_first_click = true → countTrue R C s.revealed = 0) ∧
    (s.game_state = "running" →
      s.remaining_safe + (countRevNonMine R C s.mine_grid s.revealed : Int) =
        (R : Int) * (C : Int) - (M : Int))

theorem countTrue_mkGrid_false (R C : Nat) : countTrue R C (mkGrid R C false) = 0 := by
  apply countCells_eq_zero.mpr
  intro i j hi hj
  exact cellD_mkGrid false false (by omega) (by exact_mod_cast hi) (by omega)
    (by exact_mod_cast hj)

theorem Inv_reset {R C M : Nat} {g : Grid Bool} (hg : WFGrid R C g) :
    Inv R C M (reset R C M g) := by
  refine ⟨WFGrid_mkGrid R C false, hg, ?_, ?_⟩
  · intro _
    exact countTrue_mkGrid_false R C
  · intro _
    have hle := countRevNonMine_le_countTrue R C g (mkGrid R C false)
    have hz := countTrue_mkGrid_false R C
    simp only [reset]
    omega

theorem Inv_step {R C M : Nat} {s : SessionState} {a : Action} {s' : SessionState}
    (hInv : Inv R C M s) (ha : ValidAction R C M a) (h : step R C s a = some s') :
    Inv R C M s' := by
  obtain ⟨hWr, hWm, hFC, hEq⟩ := hInv
  unfold step at h
  by_cases hrun : s.game_state = "running"
  case neg =>
    rw [if_neg hrun] at h
    obtain rfl := Option.some.inj h
    exact ⟨hWr, hWm, hFC, hEq⟩
  case pos =>
    rw [if_pos hrun] at h
    cases a with
    | flag r c =>
      dsimp only at h
      by_cases hfr : (!(cellD false s.revealed r c)) = true
      · rw [if_pos hfr] at h
        obtain rfl := Option.some.inj h
        exact ⟨hWr, hWm, hFC, hEq⟩
      · rw [if_neg hfr] at h
        obtain rfl := Option.some.inj h
        exact ⟨hWr, hWm, hFC, hEq⟩
    | chord r c =>
      dsimp only at h
      obtain ⟨hr1, hr2, hc1, hc2⟩ := ha
      cases hcr : chord_reveal (R : Int) (C : Int) r c s.mine_grid s.adjacency_grid
          s.revealed s.flagged with
      | none =>
        rw [hcr, Option.map_none'] at h
        exact Option.noConfusion h
      | some val =>
        rcases val with ⟨hit, opened, rev1⟩
        rw [hcr, Option.map_some'] at h
        obtain rfl := Option.some.inj h
        by_cases hfirst : s.is_first_click = true
        · have hrd : cellD false s.revealed r c = false :=
            countTrue_zero_read (hFC hfirst) hr1 hr2 hc1 hc2
          have hdet : chord_reveal (R : Int) (C : Int) r c s.mine_grid s.adjacency_grid
              s.revealed s.flagged = some (false, 0, s.revealed) :=
            chord_reveal_unrevealed hrd
          obtain ⟨rfl, rfl, rfl⟩ :
              hit = false ∧ opened = 0 ∧ rev1 = s.revealed := by
            have := Option.some.inj (hcr.symm.trans hdet)
            exact ⟨congrArg Prod.fst this, congrArg (fun x => x.2.1) this,
              congrArg (fun x => x.2.2) this⟩
          rw [applyOutcome_nohit]
          refine ⟨hWr, hWm, fun _ => hFC hfirst, ?_⟩
          intro _
          have := hEq hrun
          dsimp only
          omega
        · cases hit with
          | true =>
            rw [applyOutcome_hit]
            refine ⟨WFGrid_revealMines R C _ _, hWm, ?_, ?_⟩
            · intro hcontra
              have hcontra2 : s.is_first_click = true := hcontra
              exact absurd hcontra2 hfirst
            · intro hcontra
              have hcontra2 : ("lost" : String) = "running" := hcontra
              exact absurd hcontra2 (by decide)
          | false =>
            obtain ⟨hwf1, hct, hcn⟩ := chord_reveal_count hWr hcr rfl
            rw [applyOutcome_nohit]
            refine ⟨hwf1, hWm, ?_, ?_⟩
            · intro hcontra
              have hcontra2 : s.is_first_click = true := hcontra
              exact absurd hcontra2 hfirst
            · intro _
              have := hEq hrun
              dsimp only at hct hcn ⊢
              omega
    | reveal r c regen =>
      dsimp only at h
      obtain ⟨hr1, hr2, hc1, hc2, hregen⟩ := ha
      by_cases hfca : (s.is_first_click && !(cellD false s.revealed r c)) = true
      · have hfirst : s.is_first_click = true := and_true_left hfca
        have hz : countTrue R C s.revealed = 0 := hFC hfirst
        have hs1 : firstClickAdjust s r c regen =
            { s with is_first_click := false, mine_grid := regen,
                     adjacency_grid := calc_adjacency regen } := by
          unfold firstClickAdjust
          rw [if_pos hfca]
        rw [hs1] at h
        have h2 : (reveal_cell (R : Int) (C : Int) r c regen (calc_adjacency regen)
            s.revealed s.flagged).map
            (fun r3 => applyOutcome R C
              { s with is_first_click := false, mine_grid := regen,
                       adjacency_grid := calc_adjacency regen } r3.1 r3.2.1 r3.2.2) =
            some s' := h
        cases hrc : reveal_cell (R : Int) (C : Int) r c regen (calc_adjacency regen)
            s.revealed s.flagged with
        | none =>
          rw [hrc, Option.map_none'] at h2
          exact Option.noConfusion h2
        | some val =>
          rcases val with ⟨hit, opened, rev1⟩
          rw [hrc, Option.map_some'] at h2
          obtain rfl := Option.some.inj h2
          have hzn : countRevNonMine R C regen s.revealed = 0 := by
            have := countRevNonMine_le_countTrue R C regen s.revealed
            omega
          cases hit with
          | true =>
            rw [applyOutcome_hit]
            refine ⟨WFGrid_revealMines R C _ _, hregen.1.1, ?_, ?_⟩
            · intro hcontra
              have hcontra2 : false = true := hcontra
              exact Bool.noConfusion hcontra2
            · intro hcontra
              have hcontra2 : ("lost" : String) = "running" := hcontra
              exact absurd hcontra2 (by decide)
          | false =>
            obtain ⟨hwf1, hct, hcn⟩ :=
              reveal_cell_count hWr ⟨hr1, hr2, hc1, hc2⟩ hrc rfl
            rw [applyOutcome_nohit]
            refine ⟨hwf1, hregen.1.1, ?_, ?_⟩
            · intro hcontra
              have hcontra2 : false = true := hcontra
              exact Bool.noConfusion hcontra2
            · intro _
              have := hEq hrun
              have hle := countRevNonMine_le_countTrue R C s.mine_grid s.revealed
              dsimp only at hct hcn ⊢
              omega
      · have hs1 : firstClickAdjust s r c regen = s := by
          unfold firstClickAdjust
          rw [if_neg hfca]
        rw [hs1] at h
        have hnofirst : s.is_first_click = true → False := by
          intro hfirst
          have hrd : cellD false s.revealed r c = false :=
            countTrue_zero_read (hFC hfirst) hr1 hr2 hc1 hc2
          apply hfca
          rw [hfirst, hrd]
          rfl
        cases hrc : reveal_cell (R : Int) (C : Int) r c s.mine_grid s.adjacency_grid
            s.revealed s.flagged with
        | none =>
          rw [hrc, Option.map_none'] at h
          exact Option.noConfusion h
        | some val =>
          rcases val with ⟨hit, opened, rev1⟩
          rw [hrc, Option.map_some'] at h
          obtain rfl := Option.some.inj h
          cases hit with
          | true =>
            rw [applyOutcome_hit]
            refine ⟨WFGrid_revealMines R C _ _, hWm, ?_, ?_⟩
            · intro hcontra
              have hcontra2 : s.is_first_click = true := hcontra
              exact (hnofirst hcontra2).elim
            · intro hcontra
              have hcontra2 : ("lost" : String) = "running" := hcontra
              exact absurd hcontra2 (by decide)
          | false =>
            obtain ⟨hwf1, hct, hcn⟩ :=
              reveal_cell_count hWr ⟨hr1, hr2, hc1, hc2⟩ hrc rfl
            rw [applyOutcome_nohit]
            refine ⟨hwf1, hWm, ?_, ?_⟩
            · intro hcontra
              have hcontra2 : s.is_first_click = true := hcontra
              exact (hnofirst hcontra2).elim
            · intro _
              have := hEq hrun
              dsimp only at hct hcn ⊢
              omega

theorem Inv_runTrace {R C M : Nat} :
    ∀ (acts : List Action) (s s' : SessionState),
      Inv R C M s → (∀ a ∈ acts, ValidAction R C M a) →
      runTrace R C s acts = some s' → Inv R C M s' := by
  intro acts
  induction acts with
  | nil =>
    intro s s' hInv _ h
    simp only [runTrace] at h
    obtain rfl := Option.some.inj h
    exact hInv
  | cons a rest ih =>
    intro s s' hInv hval h
    simp only [runTrace] at h
    cases hst : step R C s a with
    | none =>
      rw [hst, Option.none_bind] at h
      exact Option.noConfusion h
    | some s1 =>
      rw [hst, Option.some_bind] at h
      exact ih s1 s' (Inv_step hInv (hval a (List.mem_cons_self _ _)) hst)
        (fun b hb => hval b (List.mem_cons_of_mem _ hb)) h

/-! ## Lemmas about `create_mine_grid` -/

theorem contains_iff_mem {β : Type} [BEq β] [LawfulBEq β] {l : List β} {a : β} :
    l.contains a = true ↔ a ∈ l := List.elem_iff

theorem available_subset {rows columns : Nat} {exclude : List (Nat × Nat)}
    {p : Nat × Nat} (hp : p ∈ availableOf rows columns exclude) :
    p ∈ all_positions rows columns :=
  (List.mem_filter.mp hp).1

theorem available_not_excluded {rows columns : Nat} {exclude : List (Nat × Nat)}
    {p : Nat × Nat} (hp : p ∈ availableOf rows columns exclude) : p ∉ exclude := by
  intro hcontra
  have hpred := (List.mem_filter.mp hp).2
  have hcon : exclude.contains p = true := contains_iff_mem.mpr hcontra
  rcases Bool.or_eq_true_iff.mp hpred with h1 | h1
  · rw [List.isEmpty_iff] at h1
    rw [h1] at hcontra
    exact List.not_mem_nil p hcontra
  · rw [hcon] at h1
    exact Bool.noConfusion h1

/-- Reads of the sampled grid built by `create_mine_grid`. -/
theorem cellD_create {rows columns : Nat} {sample : List (Nat × Nat)} {i j : Nat}
    (hi : i < rows) (hj : j < columns) :
    cellD false ((List.range rows).map (fun (r : Nat) =>
      (List.range columns).map (fun (c : Nat) => sample.contains (r, c))))
      (i : Int) (j : Int) = sample.contains (i, j) := by
  have := @cellD_mk Bool rows columns
    (fun (r : Nat) (c : Nat) => sample.contains (r, c)) false (i : Int) (j : Int)
    (by omega) (by exact_mod_cast hi) (by omega) (by exact_mod_cast hj)
  rw [Int.toNat_natCast, Int.toNat_natCast] at this
  exact this

theorem countTrue_create {rows columns num_mines : Nat} {exclude sample : List (Nat × Nat)}
    (hok : SampleOk rows columns num_mines exclude sample) :
    countTrue rows columns ((List.range rows).map (fun (r : Nat) =>
      (List.range columns).map (fun (c : Nat) => sample.contains (r, c)))) = num_mines := by
  obtain ⟨hnodup, hlen, hsub⟩ := hok
  have hread : countTrue rows columns ((List.range rows).map (fun (r : Nat) =>
      (List.range columns).map (fun (c : Nat) => sample.contains (r, c)))) =
      ((all_positions rows columns).filter (fun p => sample.contains p)).length := by
    unfold countTrue countCells
    congr 1
    apply List.filter_congr
    intro p hp
    rw [mem_all_positions] at hp
    show cellD false ((List.range rows).map (fun (r : Nat) =>
      (List.range columns).map (fun (c : Nat) => sample.contains (r, c))))
      ((p.1 : Nat) : Int) ((p.2 : Nat) : Int) = sample.contains p
    rw [cellD_create hp.1 hp.2, Prod.mk.eta]
  rw [hread]
  have hperm : ((all_positions rows columns).filter (fun p => sample.contains p)).Perm
      sample := by
    apply List.perm_of_nodup_nodup_toFinset_eq
    · exact (all_positions_nodup rows columns).filter _
    · exact hnodup
    · ext x
      simp only [List.mem_toFinset, List.mem_filter, contains_iff_mem]
      constructor
      · exact fun hx => hx.2
      · exact fun hx => ⟨available_subset (hsub x hx), hx⟩
  rw [hperm.length_eq, hlen]

/-! ## Claims -/

/-- C2 (confirmed): for every well-formed board and every unrevealed,
unflagged, non-mine seed cell `(r, c)`, after `reveal_cell` every mine cell
that was unrevealed before the call is still unrevealed — flood-fill expansion
never marks a mine cell revealed as a side effect.  `BR`, `BC` are the values
of the bound globals at call time. -/
theorem C2_flood_never_reveals_mines (R C : Nat) (BR BC : Int) (mg : Grid Bool)
    (adj : Grid Int) (rev fl : Grid Bool) (r c : Int) (res : Bool × Nat × Grid Bool)
    (hmg : WFGrid R C mg) (hrev : WFGrid R C rev)
    (hunrev : cellD false rev r c = false) (hunflag : cellD false fl r c = false)
    (hnomine : cellD false mg r c = false)
    (h : reveal_cell BR BC r c mg adj rev fl = some res) :
    ∀ i j : Int, cellD false mg i j = true → cellD false rev i j = false →
      cellD false res.2.2 i j = false :=
  (reveal_cell_nomine hmg hrev hnomine h).2

theorem C2_witness :
    cellD false ([[false, true], [false, false]] : Grid Bool) 0 1 = true ∧
    cellD false ((false, 1, ([[true, false], [false, false]] : Grid Bool)) :
      Bool × Nat × Grid Bool).2.2 0 1 = false :=
  ⟨by decide,
    C2_flood_never_reveals_mines 2 2 2 2 [[false, true], [false, false]]
      (calc_adjacency [[false, true], [false, false]])
      [[false, false], [false, false]] [[false, false], [false, false]] 0 0
      (false, 1, [[true, false], [false, false]])
      (by decide) (by decide) (by decide) (by decide) (by decide) (by decide)
      0 1 (by decide) (by decide)⟩

/-- C7 (confirmed): a direct click on an unrevealed, unflagged mine cell
returns `(hit_mine = true, newly_revealed = 1)`, marks exactly that cell
revealed — the sentinel check fires before any expansion — and changes no other
cell of the revealed matrix (the other three matrices are never written by
`reveal_cell` at all). -/
theorem C7_direct_mine_hit (R C : Nat) (BR BC : Int) (mg : Grid Bool) (adj : Grid Int)
    (rev fl : Grid Bool) (r c : Int)
    (hrev : WFGrid R C rev) (hinb : inBounds R C (r, c))
    (hunrev : cellD false rev r c = false) (hunflag : cellD false fl r c = false)
    (hmine : cellD false mg r c = true) :
    reveal_cell BR BC r c mg adj rev fl = some (true, 1, setCell rev r c true) ∧
      cellD false (setCell rev r c true) r c = true ∧
      ∀ i j : Int, inBounds R C (i, j) → ¬(i = r ∧ j = c) →
        cellD false (setCell rev r c true) i j = cellD false rev i j := by
  have hguard : (cellD false rev r c || cellD false fl r c) = true → False := fun hc => by
    rw [hunrev, hunflag] at hc
    exact Bool.noConfusion hc
  refine ⟨?_, ?_, ?_⟩
  · unfold reveal_cell revealFuel
    rw [if_neg hguard]
    simp only [revealLoop]
    rw [if_neg hguard, if_pos hmine]
  · exact cellD_setCell_self hrev false true hinb.1 hinb.2.1 hinb.2.2.1 hinb.2.2.2
  · intro i j hij hne
    rw [cellD_setCell_inb hrev false true hinb.1 hinb.2.1 hinb.2.2.1 hinb.2.2.2 i j
      hij.1 hij.2.1 hij.2.2.1 hij.2.2.2]
    rw [if_neg]
    rintro ⟨e1, e2⟩
    exact hne ⟨e1.symm, e2.symm⟩

theorem C7_witness :
    cellD false ([[true, false], [false, false]] : Grid Bool) 0 0 = true ∧
    reveal_cell 2 2 0 0 [[true, false], [false, false]]
      (calc_adjacency [[true, false], [false, false]])
      [[false, false], [false, false]] [[false, false], [false, false]] =
      some (true, 1, setCell [[false, false], [false, false]] 0 0 true) :=
  ⟨by decide,
    (C7_direct_mine_hit 2 2 2 2 [[true, false], [false, false]]
      (calc_adjacency [[true, false], [false, false]])
      [[false, false], [false, false]] [[false, false], [false, false]] 0 0
      (by decide) (by decide) (by decide) (by decide) (by decide)).1⟩

/-- C9 (confirmed): on a revealed cell whose adjacency number is not positive,
or whose flagged-neighbour count differs from its adjacency number,
`chord_reveal` returns `(false, 0)` with the revealed matrix returned
unchanged; the mine, adjacency and flagged matrices are never written by
`chord_reveal` at all, so no cell state changes. -/
theorem C9_chord_mismatch_noop (BR BC : Int) (mg : Grid Bool) (adj : Grid Int)
    (rev fl : Grid Bool) (r c : Int)
    (hrc : cellD false rev r c = true)
    (hcond : cellD 0 adj r c ≤ 0 ∨
      ¬((((neighborsList BR BC r c).filter
        (fun p => cellD false fl p.1 p.2)).length : Int) = cellD 0 adj r c)) :
    chord_reveal BR BC r c mg adj rev fl = some (false, 0, rev) := by
  unfold chord_reveal
  have hguard : (!(cellD false rev r c)) = true → False := fun hc => by
    rw [hrc] at hc
    exact Bool.noConfusion hc
  rw [if_neg hguard]
  by_cases h2 : cellD 0 adj r c ≤ 0
  · rw [if_pos h2]
  · rw [if_neg h2]
    rcases hcond with h1 | h1
    · exact absurd h1 h2
    · rw [if_pos h1]

theorem C9_witness :
    cellD 0 (calc_adjacency [[false, false, true], [false, false, false],
      [false, false, false]]) 1 1 = 1 ∧
    chord_reveal 3 3 1 1 [[false, false, true], [false, false, false],
      [false, false, false]]
      (calc_adjacency [[false, false, true], [false, false, false],
        [false, false, false]])
      [[false, false, false], [false, true, false], [false, false, false]]
      [[false, false, false], [false, false, false], [false, false, false]] =
      some (false, 0,
        [[false, false, false], [false, true, false], [false, false, false]]) :=
  ⟨by decide,
    C9_chord_mismatch_noop 3 3 [[false, false, true], [false, false, false],
      [false, false, false]]
      (calc_adjacency [[false, false, true], [false, false, false],
        [false, false, false]])
      [[false, false, false], [false, true, false], [false, false, false]]
      [[false, false, false], [false, false, false], [false, false, false]] 1 1
      (by decide) (Or.inr (by decide))⟩

/-- C10 (confirmed): on a board whose dimensions equal the configured
`cfg.ROWS` by `cfg.COLUMNS`, `reveal_cell` at an in-bounds coordinate
terminates: the embedded work-list loop finishes within the proven fuel bound
(a cell is pushed only while unrevealed, each productive iteration reveals a
previously unrevealed cell, and each reveals pushes at most 8 neighbours), so
the call returns a result. -/
theorem C10_reveal_terminates (mg : Grid Bool) (adj : Grid Int) (rev fl : Grid Bool)
    (r c : Int) (hrev : WFGrid 8 6 rev) (hinb : inBounds 8 6 (r, c)) :
    (reveal_cell cfg.ROWS cfg.COLUMNS r c mg adj rev fl).isSome := by
  show (reveal_cell ((8 : Nat) : Int) ((6 : Nat) : Int) r c mg adj rev fl).isSome
  exact reveal_cell_isSome hrev hinb

theorem C10_witness :
    inBounds 8 6 (0, 0) ∧
    (reveal_cell cfg.ROWS cfg.COLUMNS 0 0 (mkGrid 8 6 false)
      (calc_adjacency (mkGrid 8 6 false)) (mkGrid 8 6 false)
      (mkGrid 8 6 false)).isSome :=
  ⟨by decide,
    C10_reveal_terminates (mkGrid 8 6 false) (calc_adjacency (mkGrid 8 6 false))
      (mkGrid 8 6 false) (mkGrid 8 6 false) 0 0 (by decide) (by decide)⟩

/-- C6 (confirmed): for positive grid dimensions and `1 ≤ mineCount`, whenever
`mineCount` does not exceed the number of eligible (non-excluded) cells, every
layout produced by `create_mine_grid` from a valid `random.sample` result is a
`rows` by `columns` boolean matrix with exactly `mineCount` true cells, none in
the excluded set; and when `mineCount` exceeds the eligible-cell count the call
fails with the configuration error instead of returning a layout. -/
theorem C6_create_mine_grid_spec (rows columns num_mines : Nat)
    (exclude sample : List (Nat × Nat))
    (hrows : 1 ≤ rows) (hcols : 1 ≤ columns) (hmines : 1 ≤ num_mines) :
    (SampleOk rows columns num_mines exclude sample →
      ∃ g, create_mine_grid rows columns num_mines exclude sample = Except.ok g ∧
        WFGrid rows columns g ∧ countTrue rows columns g = num_mines ∧
        ∀ i j : Nat, i < rows → j < columns → (i, j) ∈ exclude →
          cellD false g (i : Int) (j : Int) = false) ∧
    ((availableOf rows columns exclude).length < num_mines →
      create_mine_grid rows columns num_mines exclude sample =
        Except.error "Number of mines exceeds available cells when applying exclusions") := by
  constructor
  · intro hok
    have hle : num_mines ≤ (availableOf rows columns exclude).length := by
      have hsubperm := List.subperm_of_subset hok.1
        (by intro x hx; exact hok.2.2 x hx)
      have hl2 := hsubperm.length_le
      have hl3 := hok.2.1
      omega
    refine ⟨(List.range rows).map (fun (r : Nat) =>
      (List.range columns).map (fun (c : Nat) => sample.contains (r, c))), ?_, ?_, ?_, ?_⟩
    · unfold create_mine_grid
      rw [if_neg (by omega)]
    · exact WFGrid_mk (fun (r : Nat) (c : Nat) => sample.contains (r, c))
    · exact countTrue_create hok
    · intro i j hi hj hmem
      rw [cellD_create hi hj]
      by_cases hcon : sample.contains (i, j) = true
      · have hmem2 := hok.2.2 (i, j) (contains_iff_mem.mp hcon)
        exact absurd hmem (available_not_excluded hmem2)
      · exact bool_eq_false hcon
  · intro hlt
    unfold create_mine_grid
    rw [if_pos hlt]

theorem C6_witness :
    (∃ g, create_mine_grid 2 2 1 [(0, 0)] [(1, 1)] = Except.ok g ∧
      WFGrid 2 2 g ∧ countTrue 2 2 g = 1 ∧
      ∀ i j : Nat, i < 2 → j < 2 → (i, j) ∈ [(0, 0)] →
        cellD false g (i : Int) (j : Int) = false) ∧
    create_mine_grid 1 1 1 [(0, 0)] [] =
      Except.error "Number of mines exceeds available cells when applying exclusions" :=
  ⟨(C6_create_mine_grid_spec 2 2 1 [(0, 0)] [(1, 1)] (by decide) (by decide)
      (by decide)).1 (by decide),
    (C6_create_mine_grid_spec 1 1 1 [(0, 0)] [] (by decide) (by decide)
      (by decide)).2 (by decide)⟩

/-- C8 (confirmed): on a revealed cell with positive adjacency number equal to
the number of flagged in-bounds neighbours, when no qualifying neighbour is
mined, `chord_reveal` reveals every unflagged neighbour, reports no mine hit,
and its `total_opened` is exactly the number of newly revealed cells. -/
theorem C8_chord_reveals_neighbors (R C : Nat) (mg : Grid Bool) (adj : Grid Int)
    (rev fl : Grid Bool) (r c : Int)
    (hmg : WFGrid R C mg) (hrev : WFGrid R C rev)
    (hrc : cellD false rev r c = true)
    (hadj : 1 ≤ cellD 0 adj r c)
    (hflags : (((neighborsList (R : Int) (C : Int) r c).filter
      (fun p => cellD false fl p.1 p.2)).length : Int) = cellD 0 adj r c)
    (hsafe : ∀ p ∈ neighborsList (R : Int) (C : Int) r c,
      cellD false fl p.1 p.2 = false → cellD false rev p.1 p.2 = false →
        cellD false mg p.1 p.2 = false) :
    ∃ res, chord_reveal (R : Int) (C : Int) r c mg adj rev fl = some res ∧
      res.1 = false ∧
      (∀ p ∈ neighborsList (R : Int) (C : Int) r c,
        cellD false fl p.1 p.2 = false → cellD false res.2.2 p.1 p.2 = true) ∧
      countTrue R C res.2.2 = countTrue R C rev + res.2.1 := by
  have hguard : (!(cellD false rev r c)) = true → False := fun hc => by
    rw [hrc] at hc
    exact Bool.noConfusion hc
  have hchord : chord_reveal (R : Int) (C : Int) r c mg adj rev fl =
      chordLoop (R : Int) (C : Int) mg adj fl (neighborsList (R : Int) (C : Int) r c)
        rev 0 := by
    unfold chord_reveal
    rw [if_neg hguard, if_neg (by omega), if_neg (fun hc => hc hflags)]
  have hlst : ∀ p ∈ neighborsList (R : Int) (C : Int) r c, inBounds R C p := by
    intro p hp
    have := mem_neighborsList_bounds hp
    exact ⟨this.1, this.2.1, this.2.2.1, this.2.2.2⟩
  have hsome : (chordLoop (R : Int) (C : Int) mg adj fl
      (neighborsList (R : Int) (C : Int) r c) rev 0).isSome :=
    chordLoop_isSome _ _ _ hrev hlst
  obtain ⟨res, heq⟩ := Option.isSome_iff_exists.mp hsome
  obtain ⟨hres1, hall⟩ := chordLoop_all hmg _ _ _ res hrev hlst hsafe heq
  obtain ⟨hwf, hct, hcn⟩ := chordLoop_count _ _ _ res hrev hlst heq hres1
  refine ⟨res, ?_, hres1, hall, by omega⟩
  rw [hchord]
  exact heq

theorem C8_witness :
    chord_reveal 3 3 1 1
      [[true, false, true], [false, false, false], [false, false, false]]
      (calc_adjacency
        [[true, false, true], [false, false, false], [false, false, false]])
      [[false, true, false], [true, true, true], [false, false, false]]
      [[true, false, true], [false, false, false], [false, false, false]] =
      some (false, 3,
        [[false, true, false], [true, true, true], [true, true, true]]) ∧
    (∃ res, chord_reveal ((3 : Nat) : Int) ((3 : Nat) : Int) 1 1
      [[true, false, true], [false, false, false], [false, false, false]]
      (calc_adjacency
        [[true, false, true], [false, false, false], [false, false, false]])
      [[false, true, false], [true, true, true], [false, false, false]]
      [[true, false, true], [false, false, false], [false, false, false]] =
        some res ∧
      res.1 = false ∧
      (∀ p ∈ neighborsList ((3 : Nat) : Int) ((3 : Nat) : Int) 1 1,
        cellD false [[true, false, true], [false, false, false],
          [false, false, false]] p.1 p.2 = false →
        cellD false res.2.2 p.1 p.2 = true) ∧
      countTrue 3 3 res.2.2 =
        countTrue 3 3 [[false, true, false], [true, true, true],
          [false, false, false]] + res.2.1) :=
  ⟨by decide,
    C8_chord_reveals_neighbors 3 3
      [[true, false, true], [false, false, false], [false, false, false]]
      (calc_adjacency
        [[true, false, true], [false, false, false], [false, false, false]])
      [[false, true, false], [true, true, true], [false, false, false]]
      [[true, false, true], [false, false, false], [false, false, false]] 1 1
      (by decide) (by decide) (by decide) (by decide) (by decide) (by decide)⟩

/-- C3 counterexample: the flood-fill bound check of `reveal_cell` in
`logic.py` uses the configuration constants `cfg.ROWS = 8` and
`cfg.COLUMNS = 6`, not the dimensions of the board it was given.  On a
mine-free 8 by 7 board, revealing (0, 0) reveals the zero-count cell (0, 5)
but leaves its in-bounds, unmined, unflagged neighbour (0, 6) unrevealed, so
the claim fails for grids whose dimensions differ from the configured
defaults. -/
theorem C3_counterexample :
    ∃ res, reveal_cell cfg.ROWS cfg.COLUMNS 0 0 (mkGrid 8 7 false)
        (calc_adjacency (mkGrid 8 7 false)) (mkGrid 8 7 false)
        (mkGrid 8 7 false) = some res ∧
      cellD false res.2.2 0 5 = true ∧
      cellD 0 (calc_adjacency (mkGrid 8 7 false)) 0 5 = 0 ∧
      cellD false (mkGrid 8 7 false) 0 6 = false ∧
      cellD false (mkGrid 8 7 false) 0 6 = cellD false res.2.2 0 6 ∧
      cellD false res.2.2 0 6 = false := by
  refine ⟨(false, 48,
    [[true, true, true, true, true, true, false],
     [true, true, true, true, true, true, false],
     [true, true, true, true, true, true, false],
     [true, true, true, true, true, true, false],
     [true, true, true, true, true, true, false],
     [true, true, true, true, true, true, false],
     [true, true, true, true, true, true, false],
     [true, true, true, true, true, true, false]]), ?_, ?_, ?_, ?_, ?_, ?_⟩
  · decide
  · decide
  · decide
  · decide
  · decide
  · decide

/-- C3 (corrected, amended): restricted to boards whose dimensions equal the
configured `cfg.ROWS` by `cfg.COLUMNS` (8 by 6) the claim holds, in the
following exact form: starting a reveal on an unrevealed, unflagged cell with
adjacency count 0, the resulting revealed matrix holds exactly the previously
revealed cells plus the unflagged cells reachable from the seed (`FloodReach`:
the seed, and recursively every in-bounds unmined neighbour of a reached
unrevealed, unflagged, zero-count cell); in particular every in-bounds unmined
unflagged neighbour of such a reached cell is revealed, and revealed cells with
a positive count are not expanded further. -/
theorem C3_flood_fill_characterization (mg rev fl : Grid Bool) (r c : Int)
    (hmg : WFGrid 8 6 mg) (hrev : WFGrid 8 6 rev) (hfl : WFGrid 8 6 fl)
    (hinb : inBounds 8 6 (r, c))
    (hunrev : cellD false rev r c = false)
    (hunflag : cellD false fl r c = false)
    (hadj0 : cellD 0 (calc_adjacency mg) r c = 0) :
    ∃ res, reveal_cell cfg.ROWS cfg.COLUMNS r c mg (calc_adjacency mg) rev fl =
        some res ∧
      res.1 = false ∧
      ∀ q : Int × Int, inBounds 8 6 q →
        (cellD false res.2.2 q.1 q.2 = true ↔
          (cellD false rev q.1 q.2 = true ∨
            (FloodReach cfg.ROWS cfg.COLUMNS mg (calc_adjacency mg) fl rev
              [(r, c)] q ∧ cellD false fl q.1 q.2 = false))) := by
  have hm : cellD false mg r c = false := by
    by_cases hmm : cellD false mg r c = true
    · have hc := cellD_calc_adjacency hmg (by norm_num) hinb.1 hinb.2.1 hinb.2.2.1
        hinb.2.2.2
      rw [if_pos hmm] at hc
      rw [hadj0] at hc
      exact absurd hc (by decide)
    · exact bool_eq_false hmm
  have hsome : (reveal_cell ((8 : Nat) : Int) ((6 : Nat) : Int) r c mg
      (calc_adjacency mg) rev fl).isSome := reveal_cell_isSome hrev hinb
  obtain ⟨res, heq⟩ := Option.isSome_iff_exists.mp hsome
  have heq2 : reveal_cell cfg.ROWS cfg.COLUMNS r c mg (calc_adjacency mg) rev fl =
      some res := heq
  have hguard : (cellD false rev r c || cellD false fl r c) = true → False :=
    fun hc => by
      rw [hunrev, hunflag] at hc
      exact Bool.noConfusion hc
  have hloop : revealLoop cfg.ROWS cfg.COLUMNS mg (calc_adjacency mg) fl
      (revealFuel cfg.ROWS cfg.COLUMNS) rev 0 [(r, c)] = some res := by
    have h3 := heq2
    unfold reveal_cell at h3
    rw [if_neg hguard] at h3
    exact h3
  have hstk : ∀ p ∈ [(r, c)], inBounds 8 6 p := by
    intro p hp
    rw [List.mem_singleton] at hp
    subst hp
    exact hinb
  have hstkm : ∀ p ∈ [(r, c)], cellD false mg p.1 p.2 = false := by
    intro p hp
    rw [List.mem_singleton] at hp
    subst hp
    exact hm
  refine ⟨res, heq2, (reveal_cell_nomine hmg hrev hm heq2).1, ?_⟩
  intro q hq
  constructor
  · intro hqtrue
    exact revealLoop_sound (by decide) (by decide) _ rev 0 [(r, c)] res hrev hstk
      hloop q hq hqtrue
  · intro hor
    rcases hor with h1 | ⟨h1, h2⟩
    · exact reveal_cell_mono heq2 _ _ h1
    · exact revealLoop_complete (by decide) (by decide) _ rev 0 [(r, c)] res hrev
        hstk hstkm hloop q h1 h2

theorem C3_witness :
    ∃ res, reveal_cell cfg.ROWS cfg.COLUMNS 0 0 (mkGrid 8 6 false)
        (calc_adjacency (mkGrid 8 6 false)) (mkGrid 8 6 false)
        (mkGrid 8 6 false) = some res ∧
      res.1 = false ∧
      ∀ q : Int × Int, inBounds 8 6 q →
        (cellD false res.2.2 q.1 q.2 = true ↔
          (cellD false (mkGrid 8 6 false) q.1 q.2 = true ∨
            (FloodReach cfg.ROWS cfg.COLUMNS (mkGrid 8 6 false)
              (calc_adjacency (mkGrid 8 6 false)) (mkGrid 8 6 false)
              (mkGrid 8 6 false) [(0, 0)] q ∧
              cellD false (mkGrid 8 6 false) q.1 q.2 = false))) :=
  C3_flood_fill_characterization (mkGrid 8 6 false) (mkGrid 8 6 false)
    (mkGrid 8 6 false) 0 0 (by decide) (by decide) (by decide) (by decide)
    (by decide) (by decide) (by decide)

/-- C4 (code_bug): `reveal_cell` performs no coordinate validation.  Python
resolves the negative row index `-1` to the last row, so on a fresh 2 by 2
board whose mine sits at (1, 0) the out-of-grid call `reveal_cell(-1, 0)`
marks the real cell (1, 0) revealed and reports a mine hit, instead of
rejecting the call and leaving the state unchanged (for a row index at or
beyond the row count Python instead raises an uncaught `IndexError`). -/
theorem C4_out_of_bounds_corrupts_state :
    reveal_cell 2 2 (-1) 0 [[false, false], [true, false]]
      (calc_adjacency [[false, false], [true, false]])
      [[false, false], [false, false]] [[false, false], [false, false]] =
      some (true, 1, [[false, false], [true, false]]) ∧
    cellD false ([[false, false], [true, false]] : Grid Bool) 1 0 = true ∧
    cellD false ([[false, false], [false, false]] : Grid Bool) 1 0 = false := by
  refine ⟨?_, ?_, ?_⟩
  · decide
  · decide
  · decide

/-- C1 (code_bug): the first-click safety block in `main` triggers on
`is_first_click and not revealed[r][c]` without checking the flag state.  On a
fresh 2 by 2 board with one mine: flagging (0, 0) and then left-clicking the
flagged cell consumes the first click and regenerates the layout (excluding
(0, 0)) while revealing nothing; the following click on (1, 1) — the first
reveal action that actually reveals a cell — hits the regenerated mine and
loses the game, contradicting the guarantee that the first actual reveal is
never a mine (and the source comment "ensure the first revealed cell is
safe"). -/
theorem C1_flagged_first_click_defeats_safety :
    (runTrace 2 2 (reset 2 2 1 [[false, true], [false, false]])
      [Action.flag 0 0, Action.reveal 0 0 [[false, false], [false, true]]] =
      some { mine_grid := [[false, false], [false, true]],
             adjacency_grid := [[1, 1], [1, -1]],
             revealed := [[false, false], [false, false]],
             flagged := [[true, false], [false, false]],
             game_state := "running", remaining_safe := 3,
             is_first_click := false }) ∧
    RegenOk 2 2 1 0 0 [[false, false], [false, true]] ∧
    (runTrace 2 2 (reset 2 2 1 [[false, true], [false, false]])
      [Action.flag 0 0, Action.reveal 0 0 [[false, false], [false, true]],
        Action.reveal 1 1 [[false, false], [false, true]]] =
      some { mine_grid := [[false, false], [false, true]],
             adjacency_grid := [[1, 1], [1, -1]],
             revealed := [[false, false], [false, true]],
             flagged := [[true, false], [false, false]],
             game_state := "lost", remaining_safe := 3,
             is_first_click := false }) := by
  refine ⟨?_, ?_, ?_⟩
  · decide
  · decide
  · decide

/-- C5 (confirmed): the session invariant of `main`: starting from `reset`
with a well-formed mine grid, after any sequence of valid reveal, chord and
flag actions, whenever the game state is "running" the remaining-safe counter
plus the number of cells that are both revealed and unmined equals
`R*C - mineCount`. -/
theorem C5_remaining_safe_invariant (R C M : Nat) (g : Grid Bool)
    (acts : List Action) (s2 : SessionState)
    (hg : WFGrid R C g)
    (hacts : ∀ a ∈ acts, ValidAction R C M a)
    (hrun : runTrace R C (reset R C M g) acts = some s2)
    (hstate : s2.game_state = "running") :
    s2.remaining_safe + (countRevNonMine R C s2.mine_grid s2.revealed : Int) =
      (R : Int) * (C : Int) - (M : Int) :=
  (Inv_runTrace acts (reset R C M g) s2 (Inv_reset hg) hacts hrun).2.2.2 hstate

theorem C5_witness :
    (runTrace 2 2 (reset 2 2 1 [[true, false], [false, false]])
      [Action.reveal 1 1 [[true, false], [false, false]]] =
      some { mine_grid := [[true, false], [false, false]],
             adjacency_grid := [[-1, 1], [1, 1]],
             revealed := [[false, false], [false, true]],
             flagged := [[false, false], [false, false]],
             game_state := "running", remaining_safe := 2,
             is_first_click := false }) ∧
    ({ mine_grid := [[true, false], [false, false]],
       adjacency_grid := [[-1, 1], [1, 1]],
       revealed := [[false, false], [false, true]],
       flagged := [[false, false], [false, false]],
       game_state := "running", remaining_safe := 2,
       is_first_click := false } : SessionState).remaining_safe +
      (countRevNonMine 2 2 [[true, false], [false, false]]
        [[false, false], [false, true]] : Int) =
      (2 : Int) * (2 : Int) - (1 : Int) :=
  ⟨by decide,
    C5_remaining_safe_invariant 2 2 1 [[true, false], [false, false]]
      [Action.reveal 1 1 [[true, false], [false, false]]]
      { mine_grid := [[true, false], [false, false]],
        adjacency_grid := [[-1, 1], [1, 1]],
        revealed := [[false, false], [false, true]],
        flagged := [[false, false], [false, false]],
        game_state := "running", remaining_safe := 2,
        is_first_click := false }
      (by decide) (by decide) (by decide) (by decide)⟩

end Minesweeper
